import Mathlib

/-!
Verification model of the libdnf goal/query core.

The definitions below are shallow embeddings of the functions in
`src/libdnf/goal` (Goal.cpp, given as `src/unnamed/part_000`) and
`src/libdnf/sack/query.cpp`.  External collaborators (the libsolv pool,
the SAT solver, data iterators) are modelled as oracle fields carried by
the pool/solver structures; everything written by the repository itself
is translated line by line.  Machine integers are modelled as `Nat`/`Int`
(no overflow is relevant to the properties proved), C strings as
`List Char`, bitmaps (`Map`/`PackageSet`) as `Finset Nat`, and fallible
code returns `Except`.
-/

namespace Libdnf

/-! ## Error taxonomy (§6 of the spec; DNF_ERROR_* codes) -/

/-- Typed error codes surfaced to callers (`DNF_ERROR_*`). -/
inductive DnfErr where
  | INTERNAL_ERROR
  | REMOVAL_OF_PROTECTED_PKG
  | NO_SOLUTION
  | BAD_SELECTOR
  | BAD_QUERY
  | FILE_INVALID
deriving DecidableEq, Repr

/-- A C++ exception as thrown by the code: either a typed libdnf error
(`Goal::Error` / an error return code) or an untyped `std::runtime_error`
carrying a plain message. -/
inductive CppErr where
  | runtimeError (msg : String)
  | dnfError (code : DnfErr)
deriving DecidableEq, Repr

/-! ## libsolv transaction-type constants (external, values immaterial) -/

/-- libsolv `SOLVER_TRANSACTION_IGNORE` (external constant). -/
def SOLVER_TRANSACTION_IGNORE : Nat := 0
/-- libsolv `SOLVER_TRANSACTION_ERASE` (external constant). -/
def SOLVER_TRANSACTION_ERASE : Nat := 1
/-- libsolv `SOLVER_TRANSACTION_INSTALL` (external constant). -/
def SOLVER_TRANSACTION_INSTALL : Nat := 2
/-- libsolv `SOLVER_TRANSACTION_OBSOLETED` (external constant). -/
def SOLVER_TRANSACTION_OBSOLETED : Nat := 3
/-- libsolv `SOLVER_TRANSACTION_OBSOLETES` (external constant). -/
def SOLVER_TRANSACTION_OBSOLETES : Nat := 4
/-- libsolv `SOLVER_TRANSACTION_REINSTALL` (external constant). -/
def SOLVER_TRANSACTION_REINSTALL : Nat := 5
/-- libsolv `SOLVER_TRANSACTION_UPGRADE` (external constant). -/
def SOLVER_TRANSACTION_UPGRADE : Nat := 6
/-- libsolv `SOLVER_TRANSACTION_DOWNGRADE` (external constant). -/
def SOLVER_TRANSACTION_DOWNGRADE : Nat := 7

/-! ## DnfGoalActions bits.
Modelled from the spec: the `DnfGoalActions` enum lives in a header that
is not under `src/`; the spec (§4.3) lists the flags.  Only distinctness
of the bits matters to the properties proved, so they are assigned
distinct powers of two. -/

/-- Goal action flag `DNF_ALLOW_UNINSTALL`. Modelled from the spec: distinct bit. -/
def DNF_ALLOW_UNINSTALL : Nat := 1
/-- Goal action flag `DNF_FORCE_BEST`. Modelled from the spec: distinct bit. -/
def DNF_FORCE_BEST : Nat := 2
/-- Goal action flag `DNF_VERIFY`. Modelled from the spec: distinct bit. -/
def DNF_VERIFY : Nat := 4
/-- Goal action flag `DNF_IGNORE_WEAK_DEPS`. Modelled from the spec: distinct bit. -/
def DNF_IGNORE_WEAK_DEPS : Nat := 8
/-- Goal action flag `DNF_ALLOW_DOWNGRADE`. Modelled from the spec: distinct bit. -/
def DNF_ALLOW_DOWNGRADE : Nat := 16
/-- Goal action flag `DNF_IGNORE_WEAK`. Modelled from the spec: distinct bit. -/
def DNF_IGNORE_WEAK : Nat := 32
/-- Goal action flag `DNF_INSTALL`. Modelled from the spec: distinct bit. -/
def DNF_INSTALL : Nat := 64
/-- Goal action flag `DNF_ERASE`. Modelled from the spec: distinct bit. -/
def DNF_ERASE : Nat := 128
/-- Goal action flag `DNF_UPGRADE`. Modelled from the spec: distinct bit. -/
def DNF_UPGRADE : Nat := 256
/-- Goal action flag `DNF_UPGRADE_ALL`. Modelled from the spec: distinct bit. -/
def DNF_UPGRADE_ALL : Nat := 512
/-- Goal action flag `DNF_DISTUPGRADE`. Modelled from the spec: distinct bit. -/
def DNF_DISTUPGRADE : Nat := 1024

/-! ## Solver-side oracles -/

/-- A materialized libsolv transaction.  `steps` is `trans->steps`; the two
functions are the external `transaction_type` oracle under the two mode
combinations used by `Goal::Impl::listResults`: `ttypeCommon` is
`SHOW_OBSOLETES|CHANGE_IS_REINSTALL`, `ttypeActive` additionally has
`SHOW_ACTIVE|SHOW_ALL`. -/
structure Trans where
  steps : List Nat
  ttypeCommon : Nat → Nat
  ttypeActive : Nat → Nat

/-- State of a created solver that the repository code reads back
(`solver_problem_count`). -/
structure SolvState where
  problemCount : Nat
deriving DecidableEq, Repr

/-- Outcome oracle for one `Goal::Impl::solve` invocation: the results of
the external `solver_solve` calls, of the install-only provider scan in
`limitInstallonlyPackages` (whether same-name runs exceeded the limit and
extra jobs were queued), and the transaction `solver_create_transaction`
would materialize. -/
structure SolverOracle where
  solve1Fails : Bool
  limitReresolve : Bool
  solve2Fails : Bool
  result : Trans
  problemCount : Nat

/-- The sack configuration read by the goal code (external `DnfSack`):
`dnf_sack_get_installonly_limit` and `dnf_sack_running_kernel`. -/
structure Sack where
  installonlyLimit : Nat
  runningKernel : Int

/-! ## Goal state -/

/-- State held by `Goal::Impl`.  The field list is from
`Goal-private.hpp`, which is not under `src/`.  Modelled from the spec:
a goal is "built empty" (§3), i.e. no solver, no transaction, no
protected set and an empty staging queue; `protect_running_kernel` is
configuration whose default is not specified, so it is always set
explicitly below. -/
structure GoalState where
  actions : Nat
  staging : List (Nat × Nat)
  solv : Option SolvState
  trans : Option Trans
  protectedPkgs : Option (Finset Nat)
  protect_running_kernel : Bool
  removalOfProtected : Option (Finset Nat)

/-- A freshly constructed goal (`Goal::Goal(DnfSack*)`): empty staging,
no solver, no transaction, no protected set.  Modelled from the spec:
"built empty". -/
def goalFresh (prk : Bool) : GoalState :=
  ⟨0, [], none, none, none, prk, none⟩

/-- Size of the removal-of-protected set, `removalOfProtected ?
removalOfProtected->size() : 0`. -/
def ropSize (g : GoalState) : Nat :=
  match g.removalOfProtected with
  | none => 0
  | some s => s.card

/-- Body of `Goal::Impl::listResults` once a transaction exists: walk
`trans->steps`, compute the transaction type of each step under the mode
selected by `type_filter1` (the `SOLVER_TRANSACTION_OBSOLETED` query uses
the common mode, everything else adds `SHOW_ACTIVE|SHOW_ALL`), and keep
the steps whose type is `type_filter1` or (when nonzero) `type_filter2`. -/
def listResultsTrans (tr : Trans) (t1 t2 : Nat) : Finset Nat :=
  (tr.steps.filter (fun p =>
    let ty := if t1 = SOLVER_TRANSACTION_OBSOLETED then tr.ttypeCommon p
              else tr.ttypeActive p
    ty = t1 ∨ (t2 ≠ 0 ∧ ty = t2))).toFinset

/-- `Goal::Impl::listResults`: with no transaction, throw
`INTERNAL_ERROR` when there is no solver, `REMOVAL_OF_PROTECTED_PKG` when
the stored removal-of-protected set is non-empty, and `NO_SOLUTION`
otherwise; with a transaction, return the filtered step set. -/
def listResults (g : GoalState) (t1 t2 : Nat) : Except DnfErr (Finset Nat) :=
  match g.trans with
  | none =>
    match g.solv with
    | none => .error .INTERNAL_ERROR
    | some _ =>
      if 0 < ropSize g then .error .REMOVAL_OF_PROTECTED_PKG
      else .error .NO_SOLUTION
  | some tr => .ok (listResultsTrans tr t1 t2)

/-- `Goal::listErasures`. -/
def listErasures (g : GoalState) : Except DnfErr (Finset Nat) :=
  listResults g SOLVER_TRANSACTION_ERASE 0

/-- `Goal::listInstalls`. -/
def listInstalls (g : GoalState) : Except DnfErr (Finset Nat) :=
  listResults g SOLVER_TRANSACTION_INSTALL SOLVER_TRANSACTION_OBSOLETES

/-- `Goal::listObsoleted`. -/
def listObsoleted (g : GoalState) : Except DnfErr (Finset Nat) :=
  listResults g SOLVER_TRANSACTION_OBSOLETED 0

/-- `Goal::listReinstalls`. -/
def listReinstalls (g : GoalState) : Except DnfErr (Finset Nat) :=
  listResults g SOLVER_TRANSACTION_REINSTALL 0

/-- `Goal::Impl::protectedRunningKernel`: the running kernel id when
kernel protection is on, `0` otherwise. -/
def protectedRunningKernel (sack : Sack) (g : GoalState) : Int :=
  if g.protect_running_kernel then sack.runningKernel else 0

/-- Membership test `protectedPkgs->has(id)`.  The source dereferences the
pointer; when `protectedPkgs` is null this is only reached with
`protect_running_kernel` set, modelled as `false` membership. -/
def protectedHas (g : GoalState) (id : Nat) : Bool :=
  match g.protectedPkgs with
  | none => false
  | some s => id ∈ s

/-- `Goal::Impl::protectedInRemovals`: nothing to do when there are no
protected packages and the kernel is not protected; otherwise take the
erase and obsoleted lists of the transaction, keep the ids that are
protected or the protected running kernel, store them as
`removalOfProtected` and report whether any survived.  Only invoked with
a materialized transaction (`solve` creates it first). -/
def protectedInRemovals (sack : Sack) (g : GoalState) : GoalState × Bool :=
  if ((match g.protectedPkgs with
       | none => true
       | some s => decide (s.card = 0)) && !g.protect_running_kernel) then
    (g, false)
  else
    match g.trans with
    | none => (g, false)
    | some tr =>
      let pkgRemoveList := listResultsTrans tr SOLVER_TRANSACTION_ERASE 0 ∪
        listResultsTrans tr SOLVER_TRANSACTION_OBSOLETED 0
      let kernel := protectedRunningKernel sack g
      let rop := pkgRemoveList.filter
        (fun id => protectedHas g id ∨ (id : Int) = kernel)
      ({ g with removalOfProtected := some rop }, 0 < rop.card)

/-- `Goal::Impl::solve`: free the previous transaction, create a fresh
solver, run the external solver on the job; on failure report `true`
without a transaction.  On success, possibly re-solve once under the
install-only limit (disabled when `installonly_limit` is zero);
materialize the transaction and finally report failure iff protected
packages are among the removals. -/
def solveG (sack : Sack) (orac : SolverOracle) (g : GoalState) :
    GoalState × Bool :=
  let g1 : GoalState := { g with trans := none, solv := some ⟨orac.problemCount⟩ }
  if orac.solve1Fails then (g1, true)
  else
    let reresolve := if sack.installonlyLimit = 0 then false else orac.limitReresolve
    if reresolve ∧ orac.solve2Fails then (g1, true)
    else
      let g2 : GoalState := { g1 with trans := some orac.result }
      protectedInRemovals sack g2

/-- `Goal::run`: construct the job (consumed by the external solver, here
folded into the oracle), OR the run flags into the goal's `actions`
bitset, then solve.  Returns `true` on failure. -/
def runG (sack : Sack) (orac : SolverOracle) (g : GoalState) (flags : Nat) :
    GoalState × Bool :=
  solveG sack orac { g with actions := g.actions ||| flags }

/-- `Goal::hasActions`: bitwise test `actions & action` converted to bool. -/
def hasActions (g : GoalState) (action : Nat) : Bool :=
  g.actions &&& action ≠ 0

/-- `Goal::Impl::countProblems`: `solver_problem_count(solv) +
MIN(1, protectedSize)`; asserts that a solver exists (`0` stands for the
asserted-unreachable case). -/
def countProblems (g : GoalState) : Nat :=
  match g.solv with
  | none => 0
  | some s => s.problemCount + min 1 (ropSize g)

/-! ## Intents (each appends tuples to staging and ORs bits into actions) -/

/-- libsolv job constant `SOLVER_SOLVABLE` (external). -/
def SOLVER_SOLVABLE : Nat := 1
/-- libsolv job constant `SOLVER_SOLVABLE_NAME` (external). -/
def SOLVER_SOLVABLE_NAME : Nat := 2
/-- libsolv job constant `SOLVER_SOLVABLE_PROVIDES` (external). -/
def SOLVER_SOLVABLE_PROVIDES : Nat := 3
/-- libsolv job constant `SOLVER_SOLVABLE_ONE_OF` (external). -/
def SOLVER_SOLVABLE_ONE_OF : Nat := 4
/-- libsolv job constant `SOLVER_SOLVABLE_REPO` (external). -/
def SOLVER_SOLVABLE_REPO : Nat := 5
/-- libsolv job constant `SOLVER_SOLVABLE_ALL` (external). -/
def SOLVER_SOLVABLE_ALL : Nat := 6
/-- libsolv job constant `SOLVER_INSTALL` (external). -/
def SOLVER_INSTALL : Nat := 256
/-- libsolv job constant `SOLVER_ERASE` (external). -/
def SOLVER_ERASE : Nat := 512
/-- libsolv job constant `SOLVER_UPDATE` (external). -/
def SOLVER_UPDATE : Nat := 768
/-- libsolv job constant `SOLVER_DISTUPGRADE` (external). -/
def SOLVER_DISTUPGRADE : Nat := 1792
/-- libsolv job constant `SOLVER_LOCK` (external). -/
def SOLVER_LOCK : Nat := 1536
/-- libsolv job constant `SOLVER_WEAK` (external). -/
def SOLVER_WEAK : Nat := 65536
/-- libsolv job constant `SOLVER_CLEANDEPS` (external). -/
def SOLVER_CLEANDEPS : Nat := 262144
/-- libsolv job constant `SOLVER_FAVOR` (external). -/
def SOLVER_FAVOR : Nat := 1048576
/-- libsolv job constant `SOLVER_DISFAVOR` (external). -/
def SOLVER_DISFAVOR : Nat := 2097152
/-- libsolv job constant `SOLVER_USERINSTALLED` (external). -/
def SOLVER_USERINSTALLED : Nat := 4194304
/-- libsolv job constant `SOLVER_TARGETED` (external). -/
def SOLVER_TARGETED : Nat := 8388608
/-- libsolv job constant `SOLVER_SETARCH` (external). -/
def SOLVER_SETARCH : Nat := 16777216
/-- libsolv job constant `SOLVER_SETEVR` (external). -/
def SOLVER_SETEVR : Nat := 33554432
/-- libsolv job constant `SOLVER_SETEV` (external). -/
def SOLVER_SETEV : Nat := 67108864
/-- libsolv job constant `SOLVER_SETREPO` (external). -/
def SOLVER_SETREPO : Nat := 134217728

/-- A staged user intent.  Package-form intents carry the solvable id
they stage; selector-form intents carry the job entries their
`sltrToJob` lowering appended. -/
inductive Intent where
  | install (optional : Bool) (pkg : Nat)
  | installSel (optional : Bool) (entries : List (Nat × Nat))
  | erase (cleanDeps : Bool) (pkg : Nat)
  | eraseSel (cleanDeps : Bool) (entries : List (Nat × Nat))
  | upgradeAll
  | upgradePkg (pkg : Nat)
  | upgradeSel (targeted : Bool) (entries : List (Nat × Nat))
  | distupgradeAll (entries : List (Nat × Nat))
  | distupgradePkg (pkg : Nat)
  | distupgradeSel (entries : List (Nat × Nat))
  | lock (pkg : Nat)
  | favor (pkg : Nat)
  | disfavor (pkg : Nat)
  | userInstalled (pkg : Nat)
deriving DecidableEq, Repr

/-- The `DnfGoalActions` bits each intent ORs into `actions`
(`Goal::install`, `Goal::erase`, `Goal::upgrade`, `Goal::distupgrade`,
`Goal::lock`, `Goal::favor`, `Goal::disfavor`, `Goal::userInstalled`). -/
def intentMask : Intent → Nat
  | .install _ _ => DNF_INSTALL ||| DNF_ALLOW_DOWNGRADE
  | .installSel _ _ => DNF_INSTALL ||| DNF_ALLOW_DOWNGRADE
  | .erase _ _ => DNF_ERASE
  | .eraseSel _ _ => DNF_ERASE
  | .upgradeAll => DNF_UPGRADE_ALL
  | .upgradePkg _ => DNF_UPGRADE
  | .upgradeSel _ _ => DNF_UPGRADE
  | .distupgradeAll _ => DNF_DISTUPGRADE ||| DNF_ALLOW_DOWNGRADE
  | .distupgradePkg _ => DNF_DISTUPGRADE ||| DNF_ALLOW_DOWNGRADE
  | .distupgradeSel _ => DNF_DISTUPGRADE ||| DNF_ALLOW_DOWNGRADE
  | .lock _ => 0
  | .favor _ => 0
  | .disfavor _ => 0
  | .userInstalled _ => 0

/-- The staging-queue tuples an intent appends (`queue_push2` calls /
the pairs appended by `sltrToJob` and `packageToJob`). -/
def intentStaging : Intent → List (Nat × Nat)
  | .install o p =>
    [(SOLVER_SOLVABLE_ONE_OF ||| SOLVER_SETARCH ||| SOLVER_SETEVR |||
      (SOLVER_INSTALL ||| (if o then SOLVER_WEAK else 0)), p)]
  | .installSel _ es => es
  | .erase c p =>
    [(SOLVER_SOLVABLE ||| SOLVER_ERASE ||| (if c then SOLVER_CLEANDEPS else 0), p)]
  | .eraseSel _ es => es
  | .upgradeAll => [(SOLVER_UPDATE ||| SOLVER_SOLVABLE_ALL, 0)]
  | .upgradePkg p =>
    [(SOLVER_SOLVABLE_ONE_OF ||| SOLVER_SETARCH ||| SOLVER_SETEVR ||| SOLVER_UPDATE, p)]
  | .upgradeSel _ es => es
  | .distupgradeAll es => es
  | .distupgradePkg p =>
    [(SOLVER_SOLVABLE_ONE_OF ||| SOLVER_SETARCH ||| SOLVER_SETEVR ||| SOLVER_DISTUPGRADE, p)]
  | .distupgradeSel es => es
  | .lock p => [(SOLVER_SOLVABLE ||| SOLVER_LOCK, p)]
  | .favor p => [(SOLVER_SOLVABLE ||| SOLVER_FAVOR, p)]
  | .disfavor p => [(SOLVER_SOLVABLE ||| SOLVER_DISFAVOR, p)]
  | .userInstalled p => [(SOLVER_SOLVABLE ||| SOLVER_USERINSTALLED, p)]

/-- Effect of one intent on the goal: OR its action bits in and append
its staging tuples. -/
def applyIntent (g : GoalState) (i : Intent) : GoalState :=
  { g with actions := g.actions ||| intentMask i,
           staging := g.staging ++ intentStaging i }

/-- A sequence of intents applied in call order. -/
def applyIntents (g : GoalState) (is : List Intent) : GoalState :=
  is.foldl applyIntent g

/-! ## Comparison flags and keynames.
Modelled from the spec: the `HY_EQ`/`HY_GT`/… bits and `HY_PKG_*`
keynames live in `hy-types.h`, which is not under `src/`; §3 of the spec
describes them as a bitset over `{EQ, LT, GT, NEQ, GLOB, ICASE, SUBSTR,
NOT}`.  Distinct bits / distinct values are all the code relies on. -/

/-- Comparison bit `HY_EQ`. Modelled from the spec: distinct bit. -/
def HY_EQ : Nat := 256
/-- Comparison bit `HY_GT`. Modelled from the spec: distinct bit. -/
def HY_GT : Nat := 512
/-- Comparison bit `HY_LT`. Modelled from the spec: distinct bit. -/
def HY_LT : Nat := 1024
/-- Comparison bit `HY_ICASE`. Modelled from the spec: distinct bit. -/
def HY_ICASE : Nat := 2048
/-- Comparison bit `HY_NOT`. Modelled from the spec: distinct bit. -/
def HY_NOT : Nat := 4096
/-- Comparison bit `HY_GLOB`. Modelled from the spec: distinct bit. -/
def HY_GLOB : Nat := 8192
/-- Comparison bit `HY_SUBSTR`. Modelled from the spec: distinct bit. -/
def HY_SUBSTR : Nat := 16384
/-- Keyname `HY_PKG_FILE`. Modelled from the spec: distinct value. -/
def HY_PKG_FILE : Nat := 19
/-- Keyname `HY_PKG_VERSION`. Modelled from the spec: distinct value. -/
def HY_PKG_VERSION : Nat := 31
/-- Error code `DNF_ERROR_BAD_QUERY` as returned (not thrown) by
`Query::addFilter`. Modelled from the spec: distinct value. -/
def DNF_ERROR_BAD_QUERY : Nat := 1
/-- Selector error code `NO_MATCH` (enum in Goal.cpp). -/
def NO_MATCH : Nat := 1
/-- Selector error code `MULTIPLE_MATCH_OBJECTS` (enum in Goal.cpp). -/
def MULTIPLE_MATCH_OBJECTS : Nat := 2
/-- Selector error code `INCORECT_COMPARISON_TYPE` (enum in Goal.cpp). -/
def INCORECT_COMPARISON_TYPE : Nat := 3
/-- libsolv knownid `SOLVABLE_NAME` (external constant; distinct from the
job flag `SOLVER_SOLVABLE_NAME`). -/
def KNOWNID_SOLVABLE_NAME : Nat := 3000
/-- libsolv knownid `SOLVABLE_PROVIDES` (external constant). -/
def KNOWNID_SOLVABLE_PROVIDES : Nat := 3001
/-- libsolv relation kind `REL_ARCH` (external constant). -/
def REL_ARCH : Nat := 3100
/-- libsolv relation kind `REL_EQ` (external constant). -/
def REL_EQ : Nat := 3101

/-! ## Filters and the selector → job lowering (`sltrToJob`) -/

/-- A filter match value (`union _Match`): either an owned string or an
interned reldep id (the variants `sltrToJob` consults). -/
inductive FMatch where
  | mstr (s : List Char)
  | mreldep (id : Nat)
deriving DecidableEq, Repr

/-- String payload of a match (`matches[i].str`). -/
def fmStr : FMatch → List Char
  | .mstr s => s
  | .mreldep _ => []

/-- Reldep payload of a match (`matches[i].reldep`). -/
def fmReldep : FMatch → Nat
  | .mstr _ => 0
  | .mreldep i => i

/-- A stored filter as the selector holds it: keyname, comparison flags
and match list. -/
structure SFilter where
  keyname : Nat
  cmpType : Nat
  fmatches : List FMatch
deriving DecidableEq, Repr

/-- Pool view used by the job lowering.  All fields are external libsolv
or sack facilities invoked by the `filter*ToJob` helpers:
`str2archid` (hy-iutil), `pool_str2id` in lookup and create mode,
`pool_rel2id`, the `SOLVABLE_NAME`/`SOLVABLE_PROVIDES` glob data
iterators, `selection_make` with `SELECTION_FILELIST`, libsolv
`selection_filter`, and the `FOR_REPOS` repository enumeration
(repo id, repo name). -/
structure JPool where
  str2archid : List Char → Nat
  str2id : List Char → Nat
  str2idCreate : List Char → Nat
  rel2id : Nat → Nat → Nat → Nat
  globNameIds : List Char → List Nat
  globProvidesId : List Char → Nat
  selectionMakeFile : List Char → Nat → List (Nat × Nat)
  selectionFilter : List (Nat × Nat) → List (Nat × Nat) → List (Nat × Nat)
  repos : List (Nat × List Char)

/-- `jobHas`: whether some job tuple is exactly `(what, id)`. -/
def jobHas (job : List (Nat × Nat)) (what id : Nat) : Bool :=
  job.any (fun e => e.1 = what ∧ e.2 = id)

/-- `filterPkgToJob`: push a `SOLVABLE_ONE_OF|SETARCH|SETEVR` tuple with
the pre-computed whatprovides offset of the selector's package set (no-op
when the selector has no package set). -/
def filterPkgToJob (what : Option Nat) (job : List (Nat × Nat)) :
    Nat × List (Nat × Nat) :=
  match what with
  | none => (0, job)
  | some w =>
    (0, job ++ [(SOLVER_SOLVABLE_ONE_OF ||| SOLVER_SETARCH ||| SOLVER_SETEVR, w)])

/-- `filterNameToJob`: a single name match; `EQ` interns the name (no
tuple at all when the name is unknown to the pool), `GLOB` walks the
name data iterator, skipping ids already present (the `jobHas` test
compares against the knownid, as the source does); other comparisons are
rejected. -/
def filterNameToJob (p : JPool) (f : Option SFilter) (job : List (Nat × Nat)) :
    Nat × List (Nat × Nat) :=
  match f with
  | none => (0, job)
  | some f =>
    if f.fmatches.length ≠ 1 then (MULTIPLE_MATCH_OBJECTS, job)
    else
      let nm := fmStr (f.fmatches.headD (.mstr []))
      if f.cmpType = HY_EQ then
        let id := p.str2id nm
        if id ≠ 0 then (0, job ++ [(SOLVER_SOLVABLE_NAME, id)]) else (0, job)
      else if f.cmpType = HY_GLOB then
        (0, (p.globNameIds nm).foldl
          (fun j id =>
            if jobHas j KNOWNID_SOLVABLE_NAME id then j
            else j ++ [(SOLVER_SOLVABLE_NAME, id)]) job)
      else (INCORECT_COMPARISON_TYPE, job)

/-- `filterFileToJob`: lower a file filter through the solver's selection
maker with the `FILELIST` flag (the selection maker empties and refills
the queue); an empty selection is `NO_MATCH`. -/
def filterFileToJob (p : JPool) (f : Option SFilter) (job : List (Nat × Nat)) :
    Nat × List (Nat × Nat) :=
  match f with
  | none => (0, job)
  | some f =>
    if f.fmatches.length ≠ 1 then (MULTIPLE_MATCH_OBJECTS, job)
    else
      let file := fmStr (f.fmatches.headD (.mstr []))
      let flags := if f.cmpType &&& HY_GLOB ≠ 0 then 1 else 0
      let sel := p.selectionMakeFile file flags
      if sel.length = 0 then (NO_MATCH, job) else (0, sel)

/-- `filterProvidesToJob`: `EQ` pushes the interned reldep as a
`SOLVABLE_PROVIDES` tuple; `GLOB` takes the first package hit of the
provides data iterator. -/
def filterProvidesToJob (p : JPool) (f : Option SFilter) (job : List (Nat × Nat)) :
    Nat × List (Nat × Nat) :=
  match f with
  | none => (0, job)
  | some f =>
    if f.fmatches.length ≠ 1 then (MULTIPLE_MATCH_OBJECTS, job)
    else
      if f.cmpType = HY_EQ then
        (0, job ++ [(SOLVER_SOLVABLE_PROVIDES, fmReldep (f.fmatches.headD (.mstr [])))])
      else if f.cmpType = HY_GLOB then
        let id := p.globProvidesId (fmStr (f.fmatches.headD (.mstr [])))
        if jobHas job KNOWNID_SOLVABLE_PROVIDES id then (0, job)
        else (0, job ++ [(SOLVER_SOLVABLE_PROVIDES, id)])
      else (INCORECT_COMPARISON_TYPE, job)

/-- `filterArchToJob`: rewrite every pending `SOLVABLE_NAME` tuple into a
`REL_ARCH` relational id and set `SETARCH`; unknown arch is `NO_MATCH`. -/
def filterArchToJob (p : JPool) (f : Option SFilter) (job : List (Nat × Nat)) :
    Nat × List (Nat × Nat) :=
  match f with
  | none => (0, job)
  | some f =>
    if f.cmpType ≠ HY_EQ then (INCORECT_COMPARISON_TYPE, job)
    else if f.fmatches.length ≠ 1 then (MULTIPLE_MATCH_OBJECTS, job)
    else
      let archid := p.str2archid (fmStr (f.fmatches.headD (.mstr [])))
      if archid = 0 then (NO_MATCH, job)
      else
        (0, job.map (fun e =>
          (e.1 ||| SOLVER_SETARCH, p.rel2id e.2 archid REL_ARCH)))

/-- `filterEvrToJob`: rewrite every pending `SOLVABLE_NAME` tuple into a
`REL_EQ` relational id, setting `SETEV` for a version-only filter and
`SETEVR` otherwise. -/
def filterEvrToJob (p : JPool) (f : Option SFilter) (job : List (Nat × Nat)) :
    Nat × List (Nat × Nat) :=
  match f with
  | none => (0, job)
  | some f =>
    if f.cmpType ≠ HY_EQ then (INCORECT_COMPARISON_TYPE, job)
    else if f.fmatches.length ≠ 1 then (MULTIPLE_MATCH_OBJECTS, job)
    else
      let evr := p.str2idCreate (fmStr (f.fmatches.headD (.mstr [])))
      let constr := if f.keyname = HY_PKG_VERSION then SOLVER_SETEV else SOLVER_SETEVR
      (0, job.map (fun e => (e.1 ||| constr, p.rel2id e.2 evr REL_EQ)))

/-- `filterReponameToJob`: build `SOLVABLE_REPO|SETREPO` tuples for every
repository with the matching name and intersect the pending selection
with them through `selection_filter`. -/
def filterReponameToJob (p : JPool) (f : Option SFilter) (job : List (Nat × Nat)) :
    Nat × List (Nat × Nat) :=
  match f with
  | none => (0, job)
  | some f =>
    if f.cmpType ≠ HY_EQ then (INCORECT_COMPARISON_TYPE, job)
    else if f.fmatches.length ≠ 1 then (MULTIPLE_MATCH_OBJECTS, job)
    else
      let nm := fmStr (f.fmatches.headD (.mstr []))
      let repoSel := (p.repos.filter (fun r => r.2 = nm)).map
        (fun r => (SOLVER_SOLVABLE_REPO ||| SOLVER_SETREPO, r.1))
      (0, p.selectionFilter job repoSel)

/-- The selector (`libdnf::Selector`).  Modelled from the spec:
`selector.hpp` is not under `src/`; §3 gives the field list
`{ pkgs?, name?, provides?, file?, arch?, evr?, reponame? }`.  `pkgs`
carries the whatprovides offset `sltrToJob` hands to `filterPkgToJob`
(absent = 0 = no package-set filter). -/
structure Selector where
  pkgs : Option Nat
  name : Option SFilter
  provides : Option SFilter
  file : Option SFilter
  arch : Option SFilter
  evr : Option SFilter
  reponame : Option SFilter
deriving DecidableEq, Repr

/-- Short-circuiting step of the `sltrToJob` chain: each stage runs only
while the accumulated return code is still `0`. -/
def sltrStep (st : Nat × List (Nat × Nat))
    (f : List (Nat × Nat) → Nat × List (Nat × Nat)) : Nat × List (Nat × Nat) :=
  if st.1 ≠ 0 then st else f st.2

/-- `sltrToJob`: an empty job when the selector has neither a required
(name/provides/file/pkgs) nor an optional (arch/evr/reponame) filter;
`BAD_SELECTOR` when an optional filter is present without any required
one; otherwise run the lowering chain into a temporary queue
(short-circuiting on the first nonzero code, where codes above
`NO_MATCH` abort with `BAD_SELECTOR` while `NO_MATCH` yields nothing)
and finally append the tuples with the solver action ORed in. -/
def sltrToJob (p : JPool) (sltr : Selector) (job : List (Nat × Nat))
    (solverAction : Nat) : Except DnfErr (List (Nat × Nat)) :=
  let anyOpt := sltr.arch.isSome || sltr.evr.isSome || sltr.reponame.isSome
  let anyReq := sltr.name.isSome || sltr.provides.isSome ||
    sltr.file.isSome || sltr.pkgs.isSome
  if !anyReq then
    if anyOpt then .error .BAD_SELECTOR
    else .ok job
  else
    let st := filterPkgToJob sltr.pkgs []
    let st := sltrStep st (filterNameToJob p sltr.name)
    let st := sltrStep st (filterFileToJob p sltr.file)
    let st := sltrStep st (filterProvidesToJob p sltr.provides)
    let st := sltrStep st (filterArchToJob p sltr.arch)
    let st := sltrStep st (filterEvrToJob p sltr.evr)
    let st := sltrStep st (filterReponameToJob p sltr.reponame)
    if 1 < st.1 then .error .BAD_SELECTOR
    else if st.1 = 1 then .ok job
    else .ok (job ++ st.2.map (fun e => (e.1 ||| solverAction, e.2)))

/-! ## String-match copying (`copyFilterChar`) -/

/-- `copyFilterChar`: a null string match throws an untyped
`std::runtime_error`; otherwise the match is copied, with a trailing
slash stripped for file filters when the string is longer than one
character. -/
def copyFilterChar (mtch : Option (List Char)) (keyname : Nat) :
    Except CppErr (List Char) :=
  match mtch with
  | none => .error (.runtimeError "Query can not accept NULL for STR match")
  | some s =>
    if keyname = HY_PKG_FILE ∧ 1 < s.length ∧ s.getLast? = some '/' then
      .ok (s.take (s.length - 1))
    else .ok s

/-! ## The pool view used by the query engine -/

/-- A solvable as the query code reads it: interned name/evr/arch ids and
the owning repository id. -/
structure Solvable where
  name : Nat
  evr : Nat
  arch : Nat
  repo : Nat
deriving DecidableEq, Repr

/-- The installed repository as the query code reads it: its id and the
solvable-id range `[start, end)` covering its solvables
(`installed_repo->start` / `installed_repo->end`; `end` is a reserved
word in Lean, hence `stop`). -/
structure RepoInfo where
  id : Nat
  start : Nat
  stop : Nat
deriving DecidableEq, Repr

/-- The libsolv pool as the query engine reads it (all external state):
the string-intern table (`pool_strn2id` / `pool_id2str`), the solvable
array, the set of real package solvables (`FOR_PKG_SOLVABLES` /
`dnf_sack_get_pkg_solvables`), the pool-wide considered bitmap, the
sack's recomputed considered map for non-default exclude flags, the
installed repository, per-repository priorities (`repo->priority`), an
order-embedding rank for EVR ids standing for the external
`pool_evrcmp` total preorder (`evrcmp a b` has the sign of
`evrRank a - evrRank b`), and the external string-EVR comparison
`pool_evrcmp_str`. -/
structure QPool where
  strings : List (List Char)
  solvables : List Solvable
  pkgSolvables : Finset Nat
  considered : Option (Finset Nat)
  consideredCached : Option (Finset Nat)
  installed : Option RepoInfo
  repoPriority : Nat → Int
  evrRank : Nat → Int
  evrcmpStr : List Char → List Char → Int

/-- Solvable lookup `pool_id2solvable`. -/
def psolv (p : QPool) (id : Nat) : Solvable :=
  p.solvables.getD id ⟨0, 0, 0, 0⟩

/-- String interning lookup `pool_strn2id(pool, s, len, 0)`: the id of an
already-interned string, `0` when unknown. -/
def strId (p : QPool) (s : List Char) : Nat :=
  match p.strings.findIdx? (fun t => t = s) with
  | some i => i + 1
  | none => 0

/-- Reverse interning `pool_id2str`. -/
def idStr (p : QPool) (id : Nat) : List Char :=
  p.strings.getD (id - 1) []

/-! ## The latest-N filter (`Query::Impl::filterLatest`) -/

/-- The three latest keynames `HY_PKG_LATEST`, `HY_PKG_LATEST_PER_ARCH`,
`HY_PKG_LATEST_PER_ARCH_BY_PRIORITY`. -/
inductive LatestKn where
  | latest
  | latestPerArch
  | latestPerArchByPriority
deriving DecidableEq, Repr

/-- `filter_latest_sortcmp`: name ascending, then evr descending (via
`pool_evrcmp`), then id ascending. -/
def filterLatestSortcmp (p : QPool) (a b : Nat) : Int :=
  let sa := psolv p a
  let sb := psolv p b
  let r : Int := (sa.name : Int) - (sb.name : Int)
  if r ≠ 0 then r else
  let r : Int := p.evrRank sb.evr - p.evrRank sa.evr
  if r ≠ 0 then r else (a : Int) - (b : Int)

/-- `filter_latest_sortcmp_byarch`: name, then arch, then evr descending,
then id. -/
def filterLatestSortcmpByarch (p : QPool) (a b : Nat) : Int :=
  let sa := psolv p a
  let sb := psolv p b
  let r : Int := (sa.name : Int) - (sb.name : Int)
  if r ≠ 0 then r else
  let r : Int := (sa.arch : Int) - (sb.arch : Int)
  if r ≠ 0 then r else
  let r : Int := p.evrRank sb.evr - p.evrRank sa.evr
  if r ≠ 0 then r else (a : Int) - (b : Int)

/-- `filter_latest_sortcmp_byarch_bypriority`: name, then arch, then repo
priority descending, then evr descending, then id. -/
def filterLatestSortcmpByarchBypriority (p : QPool) (a b : Nat) : Int :=
  let sa := psolv p a
  let sb := psolv p b
  let r : Int := (sa.name : Int) - (sb.name : Int)
  if r ≠ 0 then r else
  let r : Int := (sa.arch : Int) - (sb.arch : Int)
  if r ≠ 0 then r else
  let r : Int := p.repoPriority sb.repo - p.repoPriority sa.repo
  if r ≠ 0 then r else
  let r : Int := p.evrRank sb.evr - p.evrRank sa.evr
  if r ≠ 0 then r else (a : Int) - (b : Int)

/-- The comparator `filterLatest` selects for a keyname. -/
def latestCmp (p : QPool) (kn : LatestKn) : Nat → Nat → Int :=
  match kn with
  | .latest => filterLatestSortcmp p
  | .latestPerArch => filterLatestSortcmpByarch p
  | .latestPerArchByPriority => filterLatestSortcmpByarchBypriority p

/-- Sorting by a three-way comparator (the external `solv_sort`; the
comparators above are total and antisymmetric with an id tie-break, so
the sorted order is uniquely determined by the comparator). -/
def sortByCmp (cmp : Nat → Nat → Int) (l : List Nat) : List Nat :=
  List.insertionSort (fun a b => cmp a b ≤ 0) l

/-- Loop body of `add_latest_to_map`: walk the block positions carrying
the previous evr id and the distinct-version counter; with a positive
`latest` stop at the first position whose counter reaches it, with a
negative `latest` skip positions whose counter is still below `-latest`. -/
def addLatestGo (p : QPool) (latest : Int) :
    List Nat → Nat → Int → Finset Nat → Finset Nat
  | [], _, _, m => m
  | i :: is, prev, vc, m =>
    let e := (psolv p i).evr
    let vc' := if e ≠ prev then vc + 1 else vc
    if 0 < latest then
      if ¬(vc' < latest) then m
      else addLatestGo p latest is e vc' (insert i m)
    else
      if vc' < -latest then addLatestGo p latest is e vc' m
      else addLatestGo p latest is e vc' (insert i m)

/-- `add_latest_to_map`: the counter starts at `0` with the previous evr
initialized to the first element's evr. -/
def addLatestToMap (p : QPool) (m : Finset Nat) (block : List Nat)
    (latest : Int) : Finset Nat :=
  match block with
  | [] => m
  | first :: _ => addLatestGo p latest block ((psolv p first).evr) 0 m

/-- Block boundary of the `filterLatest` grouping loop: a new block
starts when the name differs from the block head's, or (for the
per-arch keynames) the arch differs. -/
def isNewBlock (p : QPool) (kn : LatestKn) (h i : Nat) : Bool :=
  (psolv p h).name ≠ (psolv p i).name ∨
    (kn ≠ LatestKn.latest ∧ (psolv p h).arch ≠ (psolv p i).arch)

/-- Repository priority of a solvable (`s->repo->priority`). -/
def prioOf (p : QPool) (i : Nat) : Int :=
  p.repoPriority (psolv p i).repo

/-- The block/grouping loop of `Query::Impl::filterLatest`, carried over
the sorted candidate list.  The state is the block head (`highest`),
`make_block`, and the elements accumulated since `start_block`.  At a
block boundary the pending block is flushed through `add_latest_to_map`
when `make_block` is set (otherwise `make_block` is re-armed); for the
by-priority keyname the first priority change inside a block flushes the
accumulated prefix and clears `make_block`, so the rest of that block is
dropped.  The trailing block is flushed after the loop. -/
def flGo (p : QPool) (kn : LatestKn) (latest : Int) :
    List Nat → Option Nat → Bool → List Nat → Finset Nat → Finset Nat
  | [], none, _, _, m => m
  | [], some _, mk, cur, m =>
    if mk then addLatestToMap p m cur latest else m
  | i :: is, none, mk, _, m => flGo p kn latest is (some i) mk [i] m
  | i :: is, some h, mk, cur, m =>
    if isNewBlock p kn h i then
      if mk then
        flGo p kn latest is (some i) true [i] (addLatestToMap p m cur latest)
      else
        flGo p kn latest is (some i) true [i] m
    else if kn = LatestKn.latestPerArchByPriority ∧ prioOf p h ≠ prioOf p i ∧ mk then
      flGo p kn latest is (some h) false (cur ++ [i])
        (addLatestToMap p m cur latest)
    else
      flGo p kn latest is (some h) mk (cur ++ [i]) m

/-- `Query::Impl::filterLatest`: for each numeric match (zero skipped),
collect the current result into a queue, sort it with the keyname's
comparator and run the grouping loop, accumulating into the shared match
map `m`. -/
def filterLatest (p : QPool) (kn : LatestKn) (nums : List Int)
    (result : Finset Nat) : Finset Nat :=
  nums.foldl
    (fun m latest =>
      if latest = 0 then m
      else
        flGo p kn latest
          (sortByCmp (latestCmp p kn) (result.sort (· ≤ ·))) none true [] m)
    ∅

/-! ## Query state and `apply` -/

/-- The query's exclude flags: the default `APPLY_EXCLUDES` uses the
pool's own considered bitmap, any other flag combination uses a
considered map recomputed by the sack. -/
inductive ExcludeFlags where
  | applyExcludes
  | ignoreExcludes
deriving DecidableEq, Repr

/-- A queued filter, by the evaluator `Query::Impl::apply` dispatches to.
`pkg` is `HY_PKG` (the match map becomes a copy of the supplied package
set); `emptyAll` is `HY_PKG_ALL`/`HY_PKG_EMPTY` (the match map stays
empty); `latest` is the three latest keynames; `external` stands for the
evaluators whose match map is produced by external pool facilities (data
iterators, advisory walks, provider iteration, …) — the map they fill is
arbitrary, which the property proofs below treat as universally
quantified.  Each filter carries its `HY_NOT` bit. -/
inductive QFilter where
  | pkg (pset : Finset Nat) (notFlag : Bool)
  | emptyAll (notFlag : Bool)
  | latest (kn : LatestKn) (nums : List Int) (notFlag : Bool)
  | external (m : Finset Nat) (notFlag : Bool)
deriving DecidableEq

/-- The `HY_NOT` bit of a queued filter (`f.getCmpType() & HY_NOT`). -/
def qfNot : QFilter → Bool
  | .pkg _ n => n
  | .emptyAll n => n
  | .latest _ _ n => n
  | .external _ n => n

/-- The query state (`Query::Impl`): the applied bit, exclude flags, the
optional owning result set and the pending filter list. -/
structure QueryState where
  applied : Bool
  flags : ExcludeFlags
  result : Option (Finset Nat)
  filters : List QFilter
deriving DecidableEq

/-- A freshly constructed query holding the given pending filters. -/
def queryFresh (flags : ExcludeFlags) (fs : List QFilter) : QueryState :=
  ⟨false, flags, none, fs⟩

/-- `Query::Impl::initResult`: start from the set of real package
solvables, then intersect with the pool's considered bitmap (under
`APPLY_EXCLUDES`) or with the sack-recomputed considered map (other
flags), whenever one exists. -/
def initResult (p : QPool) (flags : ExcludeFlags) : Finset Nat :=
  match flags with
  | .applyExcludes =>
    match p.considered with
    | some c => p.pkgSolvables ∩ c
    | none => p.pkgSolvables
  | .ignoreExcludes =>
    match p.consideredCached with
    | some c => p.pkgSolvables ∩ c
    | none => p.pkgSolvables

/-- Evaluate one filter into a fresh match map `m` (the per-keyname
dispatch of `Query::Impl::apply`). -/
def evalFilter (p : QPool) (res : Finset Nat) : QFilter → Finset Nat
  | .pkg pset _ => pset
  | .emptyAll _ => ∅
  | .latest kn nums _ => filterLatest p kn nums res
  | .external m _ => m

/-- One step of the filter fold in `Query::Impl::apply`: subtract the
match map under `HY_NOT`, intersect otherwise. -/
def applyStep (p : QPool) (r : Finset Nat) (f : QFilter) : Finset Nat :=
  if qfNot f then r \ evalFilter p r f else r ∩ evalFilter p r f

/-- `Query::Impl::apply`: a no-op when already applied; otherwise
initialize the result if absent, fold every pending filter into it, set
the applied bit and clear the filter list. -/
def applyQ (p : QPool) (q : QueryState) : QueryState :=
  if q.applied then q
  else
    let r0 := match q.result with
      | some r => r
      | none => initResult p q.flags
    let r := q.filters.foldl (applyStep p) r0
    ⟨true, q.flags, some r, []⟩

/-- The result set of a query (empty when never applied). -/
def resultOf (q : QueryState) : Finset Nat :=
  match q.result with
  | some r => r
  | none => ∅

/-! ## The `installed()` / `available()` reducers -/

/-- Walk of `Query::installed` from the first result member at or above
`installed_repo->start`, in increasing id order: collect members of the
installed repository into the filter map, skip other members below
`installed_repo->end`, and stop at the first other member at or beyond
it. -/
def collectInstalled (p : QPool) (rep : RepoInfo) : List Nat → Finset Nat
  | [] => ∅
  | i :: is =>
    if (psolv p i).repo = rep.id then insert i (collectInstalled p rep is)
    else if i < rep.stop then collectInstalled p rep is
    else ∅

/-- Walk of `Query::available` over the same members, removing installed
members from the result instead. -/
def removeInstalled (p : QPool) (rep : RepoInfo) (res : Finset Nat) :
    List Nat → Finset Nat
  | [] => res
  | i :: is =>
    if (psolv p i).repo = rep.id then removeInstalled p rep (res.erase i) is
    else if i < rep.stop then removeInstalled p rep res is
    else res

/-- The result members visited by the reducer walks: those at or above
`installed_repo->start`, in increasing id order (`pkgId = start;
if (!has(pkgId)) pkgId = next(pkgId); …`). -/
def walkMembers (r : Finset Nat) (start : Nat) : List Nat :=
  (r.filter (fun i => start ≤ i)).sort (· ≤ ·)

/-- `Query::installed`: apply, clear the result when no installed
repository exists, else intersect the result with the members collected
by the walk. -/
def installedQ (p : QPool) (q : QueryState) : QueryState :=
  let q1 := applyQ p q
  match p.installed with
  | none => { q1 with result := some ∅ }
  | some rep =>
    let r := resultOf q1
    { q1 with result := some (r ∩ collectInstalled p rep (walkMembers r rep.start)) }

/-- `Query::available`: apply, keep the result unchanged when no
installed repository exists, else remove the walked installed members
from it. -/
def availableQ (p : QPool) (q : QueryState) : QueryState :=
  let q1 := applyQ p q
  match p.installed with
  | none => q1
  | some rep =>
    let r := resultOf q1
    { q1 with result := some (removeInstalled p rep r (walkMembers r rep.start)) }

/-! ## Strict NEVRA parsing (`NevraID::parse`) -/

/-- Read a character of a C string, NUL beyond the end. -/
def charAt (l : List Char) (i : Nat) : Char :=
  l.getD i (Char.ofNat 0)

/-- Delimiter state of the `NevraID::parse` scanning loop: the positions
of the second-to-last dash (`evrDelim`), the last dash (`releaseDelim`)
and the last dot (`archDelim`) seen so far. -/
structure ScanSt where
  evrDelim : Option Nat
  releaseDelim : Option Nat
  archDelim : Option Nat
deriving DecidableEq, Repr

/-- The delimiter scan of `NevraID::parse`: each dash shifts the previous
last-dash position into `evrDelim` and records itself as `releaseDelim`,
each dot records itself as `archDelim`. -/
def nevraScan : List Char → Nat → ScanSt → ScanSt
  | [], _, st => st
  | c :: cs, pos, st =>
    nevraScan cs (pos + 1)
      (if c = '-' then ⟨st.releaseDelim, some pos, st.archDelim⟩
       else if c = '.' then ⟨st.evrDelim, st.releaseDelim, some pos⟩
       else st)

/-- The zero-epoch stripping loop of `NevraID::parse`:  while the
character after the current delimiter position is `'0'`, advance the
probe index; when the probed character is `':'`, move the delimiter
there.  The loop terminates because the probed absolute position grows,
bounded here by a fuel of the pattern length. -/
def stripEpochGo (pat : List Char) : Nat → Nat → Nat → Nat
  | 0, ed, _ => ed
  | fuel + 1, ed, index =>
    if charAt pat (ed + index) = '0' then
      let index' := index + 1
      if charAt pat (ed + index') = ':' then stripEpochGo pat fuel (ed + index') index'
      else stripEpochGo pat fuel ed index'
    else ed

/-- Entry point of the zero-epoch strip, probing from index 1. -/
def stripEpoch (pat : List Char) (ed : Nat) : Nat :=
  stripEpochGo pat (pat.length + 2) ed 1

/-- Does a string start with zero or more `'0'` followed by `':'`? -/
def zeroColonLead : List Char → Bool
  | [] => false
  | c :: rest => if c = ':' then true else if c = '0' then zeroColonLead rest else false

/-- Zero-epoch lead test (the shape the strip loop rewrites): at least
one `'0'`, then zero or more `'0'`, then `':'`. -/
def zeroEpochLead : List Char → Bool
  | [] => false
  | c :: rest => if c = '0' then zeroColonLead rest else false

/-- The parsed `(name, arch, evr)` id triple, with the EVR kept as a
string in the relational mode. -/
structure NevraID where
  name : Nat
  arch : Nat
  evr : Nat
  evr_str : List Char
deriving DecidableEq, Repr

/-- `NevraID::parse`: scan the delimiters; fail when there is no
second-to-last dash or it sits at the start (no name); strip a zero
epoch after the second-to-last dash; fail when the version, the release
or the arch would be empty or there is no dot; then intern the name,
the EVR (in `createEVRId` mode; kept as a string otherwise) and the
arch, failing when any id is unknown to the pool. -/
def parseNevra (p : QPool) (pat : List Char) (createEVRId : Bool) :
    Option NevraID :=
  let st := nevraScan pat 0 ⟨none, none, none⟩
  match st.evrDelim with
  | none => none
  | some ed0 =>
    if ed0 = 0 then none
    else
      let nameLen := ed0
      let ed := stripEpoch pat ed0
      match st.releaseDelim, st.archDelim with
      | some rd, some ad =>
        if rd ≤ ed + 1 ∨ ad ≤ rd + 1 ∨ ad = pat.length - 1 then none
        else
          let nm := strId p (pat.take nameLen)
          if nm = 0 then none
          else
            let evrChars := (pat.drop (ed + 1)).take (ad - (ed + 1))
            if createEVRId then
              let evr := strId p evrChars
              if evr = 0 then none
              else
                let ar := strId p (pat.drop (ad + 1))
                if ar = 0 then none else some ⟨nm, ar, evr, []⟩
            else
              let ar := strId p (pat.drop (ad + 1))
              if ar = 0 then none else some ⟨nm, ar, 0, evrChars⟩
      | _, _ => none

/-- The canonical NEVRA string of a solvable as `pool_solvid2str` renders
it: `name-evr.arch` with the EVR exactly as interned. -/
def canonicalNevra (p : QPool) (id : Nat) : List Char :=
  let s := psolv p id
  idStr p s.name ++ '-' :: (idStr p s.evr ++ '.' :: idStr p s.arch)

/-! ## `Query::Impl::filterNevraStrict` -/

/-- The body of the match-collection loop of `filterNevraStrict`, per
visited entry: a null match throws the untyped runtime error, otherwise
each match that parses contributes its `NevraID` to the compare set, in
match order.  The loop itself only visits the `g_strv_length` prefix of
the array (see `gStrvLength`/`filterNevraStrict`), on which the null
branch — kept here because it stands in the source — never fires. -/
def collectNevraIds (p : QPool) (createEVRId : Bool) :
    List (Option (List Char)) → Except CppErr (List NevraID)
  | [] => .ok []
  | none :: _ => .error (.runtimeError "Query can not accept NULL for STR match")
  | some pat :: rest =>
    match collectNevraIds p createEVRId rest with
    | .error e => .error e
    | .ok tl =>
      .ok (match parseNevra p pat createEVRId with
           | some nid => nid :: tl
           | none => tl)

/-- `g_strv_length` on the match array: the number of entries before the
first null — a null-terminated array stops at its first null pointer. -/
def gStrvLength (ms : List (Option (List Char))) : Nat :=
  (ms.takeWhile (fun m => m.isSome)).length

/-- `Query::Impl::filterNevraStrict`.  The collection loop runs for
`nmatches = g_strv_length(matches)` iterations, so only the prefix of
the match array before the first null is visited.  An empty compare set
empties the result (unless negated).  In the interned-EVR mode a result
member is
matched when some compare-set entry has its exact `(name, arch, evr)`
ids — the source's single-element test and its sorted-vector binary
search are two implementations of exactly this membership, modelled
uniformly.  In the relational mode a member matches when some entry with
its `(name, arch)` satisfies the `pool_evrcmp_str` comparison selected
by the `HY_GT`/`HY_LT`/`HY_EQ` bits — likewise the source's linear walk
from the lower bound over the name/arch-sorted vector.  Finally the
match map is subtracted from the result under `HY_NOT` and intersected
into it otherwise. -/
def filterNevraStrict (p : QPool) (cmpType : Nat)
    (ms : List (Option (List Char))) (result : Finset Nat) :
    Except CppErr (Finset Nat) :=
  let createEVRId := ¬(cmpType &&& HY_LT ≠ 0 ∨ cmpType &&& HY_GT ≠ 0)
  match collectNevraIds p createEVRId (ms.take (gStrvLength ms)) with
  | .error e => .error e
  | .ok compareSet =>
    if compareSet.isEmpty then
      if cmpType &&& HY_NOT = 0 then .ok ∅ else .ok result
    else
      let nevraResult : Finset Nat :=
        if createEVRId then
          result.filter (fun id =>
            let s := psolv p id
            compareSet.any (fun nid =>
              nid.name = s.name ∧ nid.arch = s.arch ∧ nid.evr = s.evr))
        else
          result.filter (fun id =>
            let s := psolv p id
            compareSet.any (fun nid =>
              nid.name = s.name ∧ nid.arch = s.arch ∧
                (let cmp := p.evrcmpStr (idStr p s.evr) nid.evr_str
                 (0 < cmp ∧ cmpType &&& HY_GT ≠ 0) ∨
                   (cmp < 0 ∧ cmpType &&& HY_LT ≠ 0) ∨
                   (cmp = 0 ∧ cmpType &&& HY_EQ ≠ 0))))
      if cmpType &&& HY_NOT ≠ 0 then .ok (result \ nevraResult)
      else .ok (result ∩ nevraResult)

/-- The `HY_PKG_NEVRA_STRICT` branch of `Query::addFilter(keyname,
cmp_type, const char *match)`: reject comparisons without any of
`EQ`/`GT`/`LT` with the `BAD_QUERY` return code, otherwise apply the
query eagerly and run `filterNevraStrict` on the single-match array. -/
def addFilterNevraStrict (p : QPool) (q : QueryState) (cmpType : Nat)
    (m : Option (List Char)) : Except CppErr (Nat × QueryState) :=
  if ¬(cmpType &&& HY_EQ ≠ 0 ∨ cmpType &&& HY_GT ≠ 0 ∨ cmpType &&& HY_LT ≠ 0) then
    .ok (DNF_ERROR_BAD_QUERY, q)
  else
    let q1 := applyQ p q
    match filterNevraStrict p cmpType [m] (resultOf q1) with
    | .error e => .error e
    | .ok r => .ok (0, { q1 with result := some r })

/-! ## Spec-side definitions for the latest-N claim.
These follow the words of the spec/claim ("sort by (name[, arch]
[, -priority], -evr, id); group by name([,arch][,priority boundary]);
include first N distinct evrs per block if N>0, skip first -N
otherwise") and are compared against `filterLatest` above. -/

/-- First occurrences of each value, in order. -/
def firstDistinct : List Nat → List Nat
  | [] => []
  | e :: es => e :: firstDistinct (es.filter (fun x => x ≠ e))
termination_by l => l.length
decreasing_by
  simp only [List.length_cons]
  exact Nat.lt_succ_of_le (List.length_filter_le _ _)

/-- Members of a block belonging to its first `n` distinct evrs (for
`n > 0`), or to all but its first `-n` distinct evrs (for `n < 0`),
"first" in block order. -/
def keepFirstNDistinct (p : QPool) (n : Int) (block : List Nat) : List Nat :=
  let evrs := firstDistinct (block.map (fun i => (psolv p i).evr))
  if 0 < n then block.filter (fun i => (psolv p i).evr ∈ evrs.take n.toNat)
  else block.filter (fun i => ¬((psolv p i).evr ∈ evrs.take (-n).toNat))

/-- Split a list into maximal runs whose members all stand in the given
relation to the run's head. -/
def chunkBy (same : Nat → Nat → Bool) : List Nat → List (List Nat)
  | [] => []
  | x :: xs => (x :: xs.takeWhile (same x)) :: chunkBy same (xs.dropWhile (same x))
termination_by l => l.length
decreasing_by
  simp only [List.length_cons]
  exact Nat.lt_succ_of_le (List.Sublist.length_le (List.dropWhile_sublist _))

/-- Non-boundary relation of the grouping loop (same name, and same arch
for the per-arch keynames). -/
def sameBlockB (p : QPool) (kn : LatestKn) (h i : Nat) : Bool :=
  !(isNewBlock p kn h i)

/-- The maximal block prefix sharing the head's repository priority. -/
def prioLead (p : QPool) (block : List Nat) : List Nat :=
  match block with
  | [] => []
  | h :: t => h :: t.takeWhile (fun i => decide (prioOf p h = prioOf p i))

/-- The part of a block the evaluator actually processes: the whole block
for `LATEST`/`LATEST_PER_ARCH`, the leading highest-priority run for
`LATEST_PER_ARCH_BY_PRIORITY`. -/
def procBlock (p : QPool) (kn : LatestKn) (block : List Nat) : List Nat :=
  if kn = LatestKn.latestPerArchByPriority then prioLead p block else block

/-- Union of a list of id lists. -/
def unionOf (ls : List (List Nat)) : Finset Nat :=
  ls.foldl (fun m l => m ∪ l.toFinset) ∅

/-- The ids the grouping loop processes at all: the union of the
processed parts of the (name[,arch]) blocks of the sorted candidates. -/
def processedSet (p : QPool) (kn : LatestKn) (result : Finset Nat) : Finset Nat :=
  unionOf (((chunkBy (sameBlockB p kn)
    (sortByCmp (latestCmp p kn) (result.sort (· ≤ ·)))).map (procBlock p kn)))

/-- Amended specification of the latest-N evaluator: sort with the
keyname's comparator, group into (name[,arch]) blocks, restrict each
block to its processed part (for the by-priority keyname, its leading
highest-priority run), and keep the first-N-distinct-evrs selection of
that part. -/
def specAmendedLatest (p : QPool) (kn : LatestKn) (n : Int)
    (result : Finset Nat) : Finset Nat :=
  unionOf (((chunkBy (sameBlockB p kn)
    (sortByCmp (latestCmp p kn) (result.sort (· ≤ ·)))).map
      (fun b => keepFirstNDistinct p n (procBlock p kn b))))

/-- Block relation exactly as the claim words it: blocks additionally
break at priority boundaries for the by-priority keyname. -/
def sameClaimBlock (p : QPool) (kn : LatestKn) (h i : Nat) : Bool :=
  sameBlockB p kn h i &&
    (if kn = LatestKn.latestPerArchByPriority then
      decide (prioOf p h = prioOf p i)
     else true)

/-- The claim's specification of the latest-N evaluator, taken at its
words: sort, group into blocks (with priority boundaries for the
by-priority keyname), and keep the first-N-distinct-evrs selection of
every block. -/
def claimLatestSpec (p : QPool) (kn : LatestKn) (n : Int)
    (result : Finset Nat) : Finset Nat :=
  unionOf (((chunkBy (sameClaimBlock p kn)
    (sortByCmp (latestCmp p kn) (result.sort (· ≤ ·)))).map
      (keepFirstNDistinct p n)))

/-- The sort key underlying the three latest comparators: name, arch
(zero when unused), negated priority (zero when unused), negated evr
rank, id.  The comparators return the first nonzero componentwise
difference of these keys. -/
def keyList (p : QPool) (kn : LatestKn) (i : Nat) : List Int :=
  let s := psolv p i
  [(s.name : Int),
   (if kn = LatestKn.latest then 0 else (s.arch : Int)),
   (if kn = LatestKn.latestPerArchByPriority then -(p.repoPriority s.repo) else 0),
   -(p.evrRank s.evr),
   (i : Int)]

/-- First nonzero componentwise difference of two equal-length integer
lists (the shape shared by the latest comparators). -/
def lexDiffL : List Int → List Int → Int
  | x :: xs, y :: ys => if x - y ≠ 0 then x - y else lexDiffL xs ys
  | _, _ => 0

/-- The keep condition of the `add_latest_to_map` walk at counter `k`:
below `latest` for a positive `latest`, at least `-latest` otherwise. -/
abbrev latCond (latest k : Int) : Prop :=
  if 0 < latest then k < latest else ¬(k < -latest)

/-- The elements `add_latest_to_map` retains, mirrored without the map
accumulator and the positive-case early return (the distinct-version
counter never decreases, so stopping early retains the same elements). -/
def keptGo (p : QPool) (latest : Int) : List Nat → Nat → Int → List Nat
  | [], _, _ => []
  | i :: is, prev, vc =>
    let e := (psolv p i).evr
    let vc' := if e ≠ prev then vc + 1 else vc
    if (if 0 < latest then vc' < latest else ¬(vc' < -latest)) then
      i :: keptGo p latest is e vc'
    else keptGo p latest is e vc'

/-- The evr ids a result set mentions. -/
def evrsOf (p : QPool) (result : Finset Nat) : Finset Nat :=
  result.image (fun i => (psolv p i).evr)

/-! ## Concrete instances used by witnesses and counterexamples -/

/-- A transaction whose steps all carry one fixed type under both modes. -/
def transEx (steps : List Nat) (ty : Nat) : Trans :=
  ⟨steps, fun _ => ty, fun _ => ty⟩

/-- A solver oracle whose first solve succeeds and whose transaction
erases solvable 5. -/
def oracleErase5 : SolverOracle :=
  ⟨false, false, false, transEx [5] SOLVER_TRANSACTION_ERASE, 1⟩

/-- A solver oracle whose first solve fails. -/
def oracleFail : SolverOracle :=
  ⟨true, false, false, transEx [] 0, 1⟩

/-- A sack with install-only limiting disabled and no running kernel. -/
def sack0 : Sack := ⟨0, -1⟩

/-- A goal protecting solvable 5 (kernel protection off). -/
def goalProtects5 : GoalState := ⟨0, [], none, none, some {5}, false, none⟩

/-- An empty query pool. -/
def pool0 : QPool :=
  ⟨[], [], ∅, none, none, none, fun _ => 0, fun _ => 0, fun _ _ => 0⟩

/-- A job-lowering pool with trivial oracles and no repositories. -/
def jpool0 : JPool :=
  ⟨fun _ => 0, fun _ => 0, fun _ => 1, fun _ _ _ => 0, fun _ => [],
   fun _ => 0, fun _ _ => [], fun _ _ => [], []⟩

/-- A pool holding one real solvable, id 1, with interned strings
name `a` (id 1), evr `1-2` (id 2) and arch `x` (id 3). -/
def poolOne : QPool :=
  ⟨[['a'], ['1', '-', '2'], ['x']],
   [⟨0, 0, 0, 0⟩, ⟨1, 2, 3, 0⟩], {1}, none, none, none,
   fun _ => 0, fun _ => 0, fun _ _ => 0⟩

/-- A pool holding two real solvables, ids 1 and 2, with identical
(name, evr, arch) interned ids — the same NEVRA available twice. -/
def poolTwins : QPool :=
  ⟨[['a'], ['1', '-', '2'], ['x']],
   [⟨0, 0, 0, 0⟩, ⟨1, 2, 3, 0⟩, ⟨1, 2, 3, 0⟩], {1, 2}, none, none, none,
   fun _ => 0, fun _ => 0, fun _ _ => 0⟩

/-- A pool with an installed repository (id 1, solvable range `[1, 3)`)
holding solvables 1 and 2, and an available repository (id 2) holding
solvable 3. -/
def poolInst : QPool :=
  ⟨[], [⟨0, 0, 0, 0⟩, ⟨1, 1, 1, 1⟩, ⟨2, 2, 2, 1⟩, ⟨1, 1, 1, 2⟩],
   {1, 2, 3}, none, none, some ⟨1, 1, 3⟩,
   fun _ => 0, fun _ => 0, fun _ _ => 0⟩

/-- A pool with two same-name same-arch solvables in repositories of
different priority: id 1 in repo 1 (priority 10, evr id 2), id 2 in
repo 2 (priority 5, evr id 3). -/
def poolPrio : QPool :=
  ⟨[], [⟨0, 0, 0, 0⟩, ⟨1, 2, 5, 1⟩, ⟨1, 3, 5, 2⟩], {1, 2}, none, none, none,
   fun r => if r = 1 then 10 else 5, fun e => (e : Int), fun _ _ => 0⟩

/-- Decidable equality for `Except` results (used to evaluate concrete
outcomes). -/
instance exceptDecEq {e a : Type} [DecidableEq e] [DecidableEq a] :
    DecidableEq (Except e a)
  | .ok x, .ok y =>
    if h : x = y then isTrue (by rw [h]) else isFalse (by simp [h])
  | .ok _, .error _ => isFalse (by simp)
  | .error _, .ok _ => isFalse (by simp)
  | .error x, .error y =>
    if h : x = y then isTrue (by rw [h]) else isFalse (by simp [h])

end Libdnf

/-! # Theorems -/

namespace Libdnf

/-! ## Helper lemmas -/

/-- Bit test for a single-bit mask. -/
theorem land_two_pow_ne_zero (x k : Nat) : x &&& 2 ^ k ≠ 0 ↔ x.testBit k = true := by
  rw [Nat.and_two_pow]
  cases h : x.testBit k <;> simp [h]

/-- The actions bitset accumulated by a list of intents is the OR-fold of
their masks. -/
theorem applyIntents_actions (g : GoalState) (is : List Intent) :
    (applyIntents g is).actions = is.foldl (fun a i => a ||| intentMask i) g.actions := by
  induction is generalizing g with
  | nil => rfl
  | cons i t ih => simpa [applyIntents, applyIntent] using ih (applyIntent g i)

/-- Bit test through the OR-fold of intent masks. -/
theorem testBit_foldl_or (k : Nat) (a : Nat) (is : List Intent) :
    (is.foldl (fun a i => a ||| intentMask i) a).testBit k =
      (a.testBit k || is.any (fun i => (intentMask i).testBit k)) := by
  induction is generalizing a with
  | nil => simp
  | cons i t ih =>
    simp only [List.foldl_cons, List.any_cons]
    rw [ih, Nat.testBit_or]
    simp [Bool.or_assoc]

/-- `protectedInRemovals` leaves the actions bitset alone. -/
theorem protectedInRemovals_actions (sack : Sack) (g : GoalState) :
    ((protectedInRemovals sack g).1).actions = g.actions := by
  unfold protectedInRemovals
  split
  · rfl
  · split <;> rfl

/-- `solve` leaves the actions bitset alone. -/
theorem solveG_actions (sack : Sack) (orac : SolverOracle) (g : GoalState) :
    ((solveG sack orac g).1).actions = g.actions := by
  unfold solveG
  split_ifs <;> simp [protectedInRemovals_actions] <;> split_ifs <;>
    simp [protectedInRemovals_actions]

/-- The null-match loop of `filterNevraStrict` throws at the first null
match, whatever precedes it. -/
theorem collectNevraIds_nullErr (p : QPool) (c : Bool) (pre : List (List Char))
    (post : List (Option (List Char))) :
    collectNevraIds p c (pre.map some ++ none :: post) =
      .error (.runtimeError "Query can not accept NULL for STR match") := by
  induction pre with
  | nil => rfl
  | cons a t ih =>
    simp only [List.map_cons, List.cons_append, collectNevraIds, List.append_eq, ih]

/-- Without null matches the collection loop never throws. -/
theorem collectNevraIds_someOk (p : QPool) (c : Bool) (ms : List (List Char)) :
    ∃ l, collectNevraIds p c (ms.map some) = .ok l := by
  induction ms with
  | nil => exact ⟨[], rfl⟩
  | cons a t ih =>
    obtain ⟨l, hl⟩ := ih
    refine ⟨match parseNevra p a c with
            | some nid => nid :: l
            | none => l, ?_⟩
    simp only [List.map_cons, collectNevraIds, List.append_eq, hl]

/-- Each filter step of `apply` shrinks the result set. -/
theorem applyStep_subset (p : QPool) (r : Finset Nat) (f : QFilter) :
    applyStep p r f ⊆ r := by
  unfold applyStep
  split
  · exact Finset.sdiff_subset
  · exact Finset.inter_subset_left

/-- The filter fold of `apply` shrinks the result set. -/
theorem foldl_applyStep_subset (p : QPool) (fs : List QFilter) (r : Finset Nat) :
    fs.foldl (applyStep p) r ⊆ r := by
  induction fs generalizing r with
  | nil => exact Finset.Subset.refl r
  | cons f t ih =>
    exact (ih (applyStep p r f)).trans (applyStep_subset p r f)

/-! ## Claim C1 -/

/-- C1 (amended): for a goal whose run failed, retrieving a result list
raises `INTERNAL_ERROR` when no solver exists, and — when no transaction
was materialized (the solver itself failed) — raises
`REMOVAL_OF_PROTECTED_PKG` if the stored removal-of-protected set is
non-empty and `NO_SOLUTION` otherwise; but when the failure was caused
by removal of a protected package detected after a successful solve, the
transaction exists and the result lists are returned without raising. -/
theorem C1_listResults_errors :
    (∀ (g : GoalState) (t1 t2 : Nat), g.trans = none → g.solv = none →
        listResults g t1 t2 = .error .INTERNAL_ERROR) ∧
    (∀ (g : GoalState) (t1 t2 : Nat) (s : SolvState), g.trans = none →
        g.solv = some s → ropSize g = 0 →
        listResults g t1 t2 = .error .NO_SOLUTION) ∧
    (∀ (g : GoalState) (t1 t2 : Nat) (s : SolvState), g.trans = none →
        g.solv = some s → 0 < ropSize g →
        listResults g t1 t2 = .error .REMOVAL_OF_PROTECTED_PKG) ∧
    (∀ (sack : Sack) (orac : SolverOracle) (g : GoalState) (flags t1 t2 : Nat)
        (tr : Trans),
        (runG sack orac g flags).2 = true →
        ((runG sack orac g flags).1).trans = some tr →
        listResults ((runG sack orac g flags).1) t1 t2 =
          .ok (listResultsTrans tr t1 t2)) := by
  refine ⟨?_, ?_, ?_, ?_⟩
  · intro g t1 t2 ht hs
    unfold listResults
    rw [ht, hs]
  · intro g t1 t2 s ht hs hr
    unfold listResults
    rw [ht, hs]
    simp [hr]
  · intro g t1 t2 s ht hs hr
    unfold listResults
    rw [ht, hs]
    simp [hr, Nat.pos_iff_ne_zero.mp hr]
  · intro sack orac g flags t1 t2 tr _ ht
    unfold listResults
    rw [ht]

/-- Witness for C1: concrete applications of each branch. -/
theorem C1_listResults_errors_witness :
    listResults ⟨0, [], none, none, none, false, none⟩ 1 0 =
        .error .INTERNAL_ERROR ∧
    listResults ⟨0, [], some ⟨1⟩, none, none, false, none⟩ 1 0 =
        .error .NO_SOLUTION ∧
    listResults ⟨0, [], some ⟨1⟩, none, none, false, some {5}⟩ 1 0 =
        .error .REMOVAL_OF_PROTECTED_PKG := by
  refine ⟨?_, ?_, ?_⟩
  · exact C1_listResults_errors.1 _ 1 0 rfl rfl
  · exact C1_listResults_errors.2.1 _ 1 0 ⟨1⟩ rfl rfl rfl
  · exact C1_listResults_errors.2.2.1 _ 1 0 ⟨1⟩ rfl rfl (by decide)

/-- Counterexample to C1 as stated: a run that fails precisely because a
protected package (solvable 5) would be removed leaves the transaction
materialized, so retrieving the erase list returns it (here `{5}`)
instead of raising `REMOVAL_OF_PROTECTED_PKG`. -/
theorem C1_counterexample :
    (runG sack0 oracleErase5 goalProtects5 0).2 = true ∧
    listErasures ((runG sack0 oracleErase5 goalProtects5 0).1) = .ok {5} := by
  constructor <;> decide

/-! ## Claim C2 -/

/-- C2: after a run (a solver exists), `countProblems()` is the solver's
problem count plus one exactly when the removal-of-protected set is
non-empty. -/
theorem C2_countProblems (g : GoalState) (s : SolvState) (h : g.solv = some s) :
    countProblems g = s.problemCount + (if 0 < ropSize g then 1 else 0) := by
  have h1 : countProblems g = s.problemCount + min 1 (ropSize g) := by
    unfold countProblems
    rw [h]
  rw [h1]
  split <;> omega

/-- Witness for C2 at a goal with two solver problems and a protected
removal recorded. -/
theorem C2_countProblems_witness :
    countProblems ⟨0, [], some ⟨2⟩, none, none, false, some {7}⟩ =
      2 + (if 0 < ropSize ⟨0, [], some ⟨2⟩, none, none, false, some {7}⟩
           then 1 else 0) :=
  C2_countProblems _ ⟨2⟩ rfl

/-! ## Claim C3 -/

/-- C3: whenever a query's stored result (if any) is within the
considered package solvables — in particular for a fresh query — the
result after `apply()` is a subset of the considered package solvables
(`initResult`), hence contains no excluded solvable, and the pending
filter list is empty afterwards. -/
theorem C3_applySubsetConsidered (p : QPool) (q : QueryState)
    (h : ∀ r, q.result = some r → r ⊆ initResult p q.flags)
    (ha : q.applied = false) :
    resultOf (applyQ p q) ⊆ initResult p q.flags ∧
    (∀ c, q.flags = ExcludeFlags.applyExcludes → p.considered = some c →
      resultOf (applyQ p q) ⊆ c) ∧
    (applyQ p q).filters = [] := by
  have hsub : resultOf (applyQ p q) ⊆ initResult p q.flags := by
    unfold applyQ
    rw [ha]
    simp only [Bool.false_eq_true, if_false, resultOf]
    rcases hr : q.result with _ | r
    · exact foldl_applyStep_subset p q.filters _
    · exact (foldl_applyStep_subset p q.filters r).trans (h r hr)
  refine ⟨hsub, ?_, ?_⟩
  · intro c hfl hc
    refine hsub.trans ?_
    rw [hfl]
    unfold initResult
    rw [hc]
    exact Finset.inter_subset_right
  · unfold applyQ
    rw [ha]
    simp

/-- Witness for C3: a fresh query with a package filter over the
one-solvable pool. -/
theorem C3_applySubsetConsidered_witness :
    resultOf (applyQ poolOne (queryFresh .applyExcludes [.pkg {1, 4} false])) ⊆
        initResult poolOne (queryFresh .applyExcludes [.pkg {1, 4} false]).flags ∧
    (∀ c, (queryFresh .applyExcludes [.pkg {1, 4} false]).flags =
        ExcludeFlags.applyExcludes → poolOne.considered = some c →
      resultOf (applyQ poolOne (queryFresh .applyExcludes [.pkg {1, 4} false])) ⊆ c) ∧
    (applyQ poolOne (queryFresh .applyExcludes [.pkg {1, 4} false])).filters = [] :=
  C3_applySubsetConsidered poolOne _ (fun r hr => Option.noConfusion hr) rfl

/-- `apply` on an already-applied query is the identity. -/
theorem applyQ_of_applied (p : QPool) (q : QueryState) (h : q.applied = true) :
    applyQ p q = q := by
  unfold applyQ
  rw [h]
  simp

/-! ## Claim C4 -/

/-- C4: `apply()` is idempotent — applying a (not yet applied) query and
then applying again yields the very same query state, in particular the
same result set, and the filter list is empty after the first apply. -/
theorem C4_applyIdempotent (p : QPool) (q : QueryState)
    (ha : q.applied = false) :
    applyQ p (applyQ p q) = applyQ p q ∧
    resultOf (applyQ p (applyQ p q)) = resultOf (applyQ p q) ∧
    (applyQ p q).filters = [] := by
  have h1 : (applyQ p q).applied = true := by
    unfold applyQ
    rw [ha]
    simp
  have h2 : applyQ p (applyQ p q) = applyQ p q := applyQ_of_applied p _ h1
  refine ⟨h2, by rw [h2], ?_⟩
  unfold applyQ
  rw [ha]
  simp

/-- Witness for C4 on a fresh query with an external filter. -/
theorem C4_applyIdempotent_witness :
    applyQ pool0 (applyQ pool0 (queryFresh .applyExcludes [.external {3} false])) =
        applyQ pool0 (queryFresh .applyExcludes [.external {3} false]) ∧
    resultOf (applyQ pool0 (applyQ pool0
        (queryFresh .applyExcludes [.external {3} false]))) =
      resultOf (applyQ pool0 (queryFresh .applyExcludes [.external {3} false])) ∧
    (applyQ pool0 (queryFresh .applyExcludes [.external {3} false])).filters = [] :=
  C4_applyIdempotent pool0 _ rfl

/-! ## Claim C5 -/

/-- The result set of a query after a direct result overwrite. -/
theorem resultOf_update (q : QueryState) (s : Finset Nat) :
    resultOf { q with result := some s } = s := rfl

/-- The `installed()` walk over a sorted member list collects exactly the
members of the installed repository, provided those members sit below
the repository's end (the walk breaks at the first other member beyond
it, and sortedness guarantees nothing is lost). -/
theorem collectInstalled_eq (p : QPool) (rep : RepoInfo) :
    ∀ l : List Nat, l.Sorted (· ≤ ·) →
      (∀ i ∈ l, (psolv p i).repo = rep.id → i < rep.stop) →
      collectInstalled p rep l =
        (l.filter (fun i => (psolv p i).repo = rep.id)).toFinset := by
  intro l
  induction l with
  | nil => intro _ _; rfl
  | cons i is ih =>
    intro hs hwf
    have hs' : is.Sorted (· ≤ ·) := hs.of_cons
    have hle : ∀ j ∈ is, i ≤ j := (List.sorted_cons.mp hs).1
    have hwf' : ∀ j ∈ is, (psolv p j).repo = rep.id → j < rep.stop :=
      fun j hj => hwf j (List.mem_cons_of_mem i hj)
    by_cases h1 : (psolv p i).repo = rep.id
    · simp only [collectInstalled, h1, if_true, List.filter_cons,
        decide_eq_true_eq, List.toFinset_cons, ih hs' hwf']
    · by_cases h2 : i < rep.stop
      · simp only [collectInstalled, h1, if_false, h2, if_true, List.filter_cons]
        rw [ih hs' hwf']
        simp [h1]
      · have hnil : is.filter (fun j => (psolv p j).repo = rep.id) = [] := by
          rw [List.filter_eq_nil_iff]
          intro j hj
          simp only [decide_eq_true_eq]
          intro hrepo
          exact h2 (Nat.lt_of_le_of_lt (hle j hj) (hwf' j hj hrepo))
        simp only [collectInstalled, h1, if_false, h2, List.filter_cons]
        simp [h1, hnil]

/-- The `available()` walk removes exactly the installed-repository
members from the result, under the same conditions. -/
theorem removeInstalled_eq (p : QPool) (rep : RepoInfo) :
    ∀ (l : List Nat) (res : Finset Nat), l.Sorted (· ≤ ·) →
      (∀ i ∈ l, (psolv p i).repo = rep.id → i < rep.stop) →
      removeInstalled p rep res l =
        res \ (l.filter (fun i => (psolv p i).repo = rep.id)).toFinset := by
  intro l
  induction l with
  | nil => intro res _ _; simp [removeInstalled]
  | cons i is ih =>
    intro res hs hwf
    have hs' : is.Sorted (· ≤ ·) := hs.of_cons
    have hle : ∀ j ∈ is, i ≤ j := (List.sorted_cons.mp hs).1
    have hwf' : ∀ j ∈ is, (psolv p j).repo = rep.id → j < rep.stop :=
      fun j hj => hwf j (List.mem_cons_of_mem i hj)
    by_cases h1 : (psolv p i).repo = rep.id
    · simp only [removeInstalled, h1, if_true, List.filter_cons]
      rw [ih (res.erase i) hs' hwf']
      ext a
      simp [h1, Finset.mem_erase, and_assoc]
      tauto
    · by_cases h2 : i < rep.stop
      · simp only [removeInstalled, h1, if_false, h2, if_true, List.filter_cons]
        rw [ih res hs' hwf']
        simp [h1]
      · have hnil : is.filter (fun j => (psolv p j).repo = rep.id) = [] := by
          rw [List.filter_eq_nil_iff]
          intro j hj
          simp only [decide_eq_true_eq]
          intro hrepo
          exact h2 (Nat.lt_of_le_of_lt (hle j hj) (hwf' j hj hrepo))
        simp only [removeInstalled, h1, if_false, h2, List.filter_cons]
        simp [h1, hnil]

/-- C5: for every query over a pool whose installed repository (if any)
indeed covers its solvables with its `[start, end)` range, the
`installed()`-reduced and `available()`-reduced results partition the
applied result: their union is the whole result, their intersection is
empty — also when no installed repository exists. -/
theorem C5_installedAvailablePartition (p : QPool) (q : QueryState)
    (hwf : ∀ rep, p.installed = some rep →
      ∀ i ∈ resultOf (applyQ p q), (psolv p i).repo = rep.id →
        rep.start ≤ i ∧ i < rep.stop) :
    resultOf (installedQ p q) ∪ resultOf (availableQ p q) =
        resultOf (applyQ p q) ∧
    resultOf (installedQ p q) ∩ resultOf (availableQ p q) = ∅ := by
  rcases hins : p.installed with _ | rep
  · have h1 : resultOf (installedQ p q) = ∅ := by
      unfold installedQ
      rw [hins]
      rfl
    have h2 : resultOf (availableQ p q) = resultOf (applyQ p q) := by
      unfold availableQ
      rw [hins]
    rw [h1, h2]
    exact ⟨Finset.empty_union _, Finset.empty_inter _⟩
  · have hwfR := hwf rep hins
    set r := resultOf (applyQ p q) with hr
    set mem := walkMembers r rep.start with hmemdef
    have hmem : ∀ i, i ∈ mem ↔ i ∈ r ∧ rep.start ≤ i := by
      intro i
      rw [hmemdef]
      unfold walkMembers
      rw [Finset.mem_sort]
      simp
    have hsort : mem.Sorted (· ≤ ·) := Finset.sort_sorted _ _
    have hwf2 : ∀ i ∈ mem, (psolv p i).repo = rep.id → i < rep.stop := by
      intro i hi hrepo
      exact (hwfR i ((hmem i).mp hi).1 hrepo).2
    have h0 : resultOf (installedQ p q) =
        r ∩ collectInstalled p rep (walkMembers r rep.start) := by
      unfold installedQ
      rw [hins]
      rfl
    have h1 : resultOf (installedQ p q) =
        r ∩ (mem.filter (fun i => (psolv p i).repo = rep.id)).toFinset := by
      rw [h0, collectInstalled_eq p rep mem hsort hwf2]
    have h0' : resultOf (availableQ p q) =
        removeInstalled p rep r (walkMembers r rep.start) := by
      unfold availableQ
      rw [hins]
      rfl
    have h2 : resultOf (availableQ p q) =
        r \ (mem.filter (fun i => (psolv p i).repo = rep.id)).toFinset := by
      rw [h0', removeInstalled_eq p rep mem r hsort hwf2]
    have hF : ∀ a, a ∈ (mem.filter (fun i => (psolv p i).repo = rep.id)).toFinset ↔
        a ∈ r ∧ (psolv p a).repo = rep.id := by
      intro a
      rw [List.mem_toFinset, List.mem_filter]
      simp only [decide_eq_true_eq, hmem]
      constructor
      · rintro ⟨⟨h3, _⟩, h4⟩
        exact ⟨h3, h4⟩
      · rintro ⟨h3, h4⟩
        exact ⟨⟨h3, (hwfR a h3 h4).1⟩, h4⟩
    rw [h1, h2]
    constructor
    · ext a
      simp only [Finset.mem_union, Finset.mem_inter, Finset.mem_sdiff, hF]
      tauto
    · ext a
      simp only [Finset.mem_inter, Finset.mem_sdiff, Finset.not_mem_empty, hF,
        iff_false]
      tauto

/-- Witness for C5 over the pool with installed repository `[1, 3)`. -/
theorem C5_installedAvailablePartition_witness :
    resultOf (installedQ poolInst (queryFresh .applyExcludes [])) ∪
        resultOf (availableQ poolInst (queryFresh .applyExcludes [])) =
      resultOf (applyQ poolInst (queryFresh .applyExcludes [])) ∧
    resultOf (installedQ poolInst (queryFresh .applyExcludes [])) ∩
        resultOf (availableQ poolInst (queryFresh .applyExcludes [])) = ∅ :=
  C5_installedAvailablePartition poolInst (queryFresh .applyExcludes [])
    (by
      intro rep hrep
      injection hrep with h
      subst h
      decide)

/-! ## Claim C6: comparator layer -/

/-- `lexDiffL` is antisymmetric. -/
theorem lexDiffL_neg : ∀ xs ys : List Int, lexDiffL xs ys = -lexDiffL ys xs := by
  intro xs
  induction xs with
  | nil => intro ys; cases ys <;> simp [lexDiffL]
  | cons x xs ih =>
    intro ys
    cases ys with
    | nil => simp [lexDiffL]
    | cons y ys =>
      simp only [lexDiffL]
      by_cases h : x - y ≠ 0
      · rw [if_pos h, if_pos (by omega : y - x ≠ 0)]
        omega
      · rw [if_neg h, if_neg (by omega : ¬(y - x ≠ 0))]
        exact ih ys

/-- `lexDiffL ⋯ ≤ 0` is transitive on equal-length lists. -/
theorem lexDiffL_trans : ∀ xs ys zs : List Int,
    xs.length = ys.length → ys.length = zs.length →
    lexDiffL xs ys ≤ 0 → lexDiffL ys zs ≤ 0 → lexDiffL xs zs ≤ 0 := by
  intro xs
  induction xs with
  | nil =>
    intro ys zs h1 h2 _ _
    cases ys with
    | nil =>
      cases zs with
      | nil => simp [lexDiffL]
      | cons z zs => simp at h2
    | cons y ys => simp at h1
  | cons x xs ih =>
    intro ys zs h1 h2 hxy hyz
    cases ys with
    | nil => simp at h1
    | cons y ys =>
      cases zs with
      | nil => simp at h2
      | cons z zs =>
        simp only [lexDiffL] at hxy hyz ⊢
        by_cases e1 : x - y ≠ 0
        · rw [if_pos e1] at hxy
          by_cases e2 : y - z ≠ 0
          · rw [if_pos e2] at hyz
            rw [if_pos (by omega : x - z ≠ 0)]
            omega
          · rw [if_neg e2] at hyz
            rw [if_pos (by omega : x - z ≠ 0)]
            omega
        · rw [if_neg e1] at hxy
          by_cases e2 : y - z ≠ 0
          · rw [if_pos e2] at hyz
            rw [if_pos (by omega : x - z ≠ 0)]
            omega
          · rw [if_neg e2] at hyz
            rw [if_neg (by omega : ¬(x - z ≠ 0))]
            exact ih ys zs (by simpa using h1) (by simpa using h2) hxy hyz

/-- Each latest comparator computes the first nonzero difference of the
five-component sort keys. -/
theorem latestCmp_eq_lexDiff (p : QPool) (kn : LatestKn) (a b : Nat) :
    latestCmp p kn a b = lexDiffL (keyList p kn a) (keyList p kn b) := by
  have h1 : ¬(LatestKn.latestPerArch = LatestKn.latest) := by decide
  have h2 : ¬(LatestKn.latestPerArch = LatestKn.latestPerArchByPriority) := by decide
  have h3 : ¬(LatestKn.latestPerArchByPriority = LatestKn.latest) := by decide
  have h4 : ¬(LatestKn.latest = LatestKn.latestPerArchByPriority) := by decide
  have h5 : (LatestKn.latest = LatestKn.latest) := rfl
  have h6 : (LatestKn.latestPerArchByPriority = LatestKn.latestPerArchByPriority) := rfl
  cases kn
  · simp only [latestCmp, keyList, filterLatestSortcmp, lexDiffL,
      if_pos h5, if_neg h4]
    split_ifs <;> omega
  · simp only [latestCmp, keyList, filterLatestSortcmpByarch, lexDiffL,
      if_neg h1, if_neg h2]
    split_ifs <;> omega
  · simp only [latestCmp, keyList, filterLatestSortcmpByarchBypriority, lexDiffL,
      if_neg h3, if_pos h6]
    split_ifs <;> omega

/-- The sort relation of a latest comparator is total. -/
theorem latestCmp_le_total (p : QPool) (kn : LatestKn) (a b : Nat) :
    latestCmp p kn a b ≤ 0 ∨ latestCmp p kn b a ≤ 0 := by
  rw [latestCmp_eq_lexDiff, latestCmp_eq_lexDiff, lexDiffL_neg]
  omega

/-- The sort relation of a latest comparator is transitive. -/
theorem latestCmp_le_trans (p : QPool) (kn : LatestKn) {a b c : Nat}
    (h1 : latestCmp p kn a b ≤ 0) (h2 : latestCmp p kn b c ≤ 0) :
    latestCmp p kn a c ≤ 0 := by
  rw [latestCmp_eq_lexDiff] at h1 h2 ⊢
  exact lexDiffL_trans (keyList p kn a) (keyList p kn b) (keyList p kn c) rfl rfl h1 h2

/-- Sorting with a latest comparator permutes the input. -/
theorem sortByCmp_perm (cmp : Nat → Nat → Int) (l : List Nat) :
    List.Perm (sortByCmp cmp l) l :=
  List.perm_insertionSort _ l

/-- Sorting with a latest comparator yields a pairwise-ordered list. -/
theorem sortByCmp_sorted (p : QPool) (kn : LatestKn) (l : List Nat) :
    (sortByCmp (latestCmp p kn) l).Pairwise
      (fun a b => latestCmp p kn a b ≤ 0) := by
  haveI : IsTotal Nat (fun a b => latestCmp p kn a b ≤ 0) :=
    ⟨fun a b => latestCmp_le_total p kn a b⟩
  haveI : IsTrans Nat (fun a b => latestCmp p kn a b ≤ 0) :=
    ⟨fun _ _ _ h1 h2 => latestCmp_le_trans p kn h1 h2⟩
  exact List.sorted_insertionSort _ l

/-! ## Claim C6: the grouping loop processed block by block -/

/-- The head of a non-empty `dropWhile` fails the predicate. -/
theorem dropWhile_head_false (q : Nat → Bool) (l : List Nat) (r : Nat)
    (h : (l.dropWhile q).head? = some r) : q r = false := by
  have hh := List.head?_dropWhile_not q l
  rw [h] at hh
  simpa using hh

/-- Walking non-boundary elements with `make_block` set accumulates them
(for the by-priority keyname, as long as the priority matches). -/
theorem flGo_walk_true (p : QPool) (kn : LatestKn) (latest : Int) (h : Nat) :
    ∀ (t rest cur : List Nat) (m : Finset Nat),
      (∀ i ∈ t, sameBlockB p kn h i = true) →
      (kn = LatestKn.latestPerArchByPriority → ∀ i ∈ t, prioOf p h = prioOf p i) →
      flGo p kn latest (t ++ rest) (some h) true cur m =
        flGo p kn latest rest (some h) true (cur ++ t) m := by
  intro t
  induction t with
  | nil => intro rest cur m _ _; simp
  | cons i t ih =>
    intro rest cur m hsame hprio
    have h1 : isNewBlock p kn h i = false := by
      have := hsame i (List.mem_cons_self i t)
      simpa [sameBlockB] using this
    simp only [List.cons_append, List.append_eq, flGo]
    rw [if_neg (by simp [h1])]
    rw [if_neg ?hc]
    case hc =>
      rintro ⟨hbp, hne, _⟩
      exact hne (hprio hbp i (List.mem_cons_self i t))
    rw [ih rest (cur ++ [i]) m
      (fun j hj => hsame j (List.mem_cons_of_mem i hj))
      (fun hbp j hj => hprio hbp j (List.mem_cons_of_mem i hj))]
    rw [List.append_assoc]
    rfl

/-- Walking non-boundary elements with `make_block` cleared accumulates
them without flushing anything. -/
theorem flGo_walk_false (p : QPool) (kn : LatestKn) (latest : Int) (h : Nat) :
    ∀ (t rest cur : List Nat) (m : Finset Nat),
      (∀ i ∈ t, sameBlockB p kn h i = true) →
      flGo p kn latest (t ++ rest) (some h) false cur m =
        flGo p kn latest rest (some h) false (cur ++ t) m := by
  intro t
  induction t with
  | nil => intro rest cur m _; simp
  | cons i t ih =>
    intro rest cur m hsame
    have h1 : isNewBlock p kn h i = false := by
      have := hsame i (List.mem_cons_self i t)
      simpa [sameBlockB] using this
    simp only [List.cons_append, List.append_eq, flGo]
    rw [if_neg (by simp [h1])]
    rw [if_neg ?hc]
    case hc =>
      rintro ⟨_, _, hmk⟩
      exact Bool.false_ne_true hmk
    rw [ih rest (cur ++ [i]) m (fun j hj => hsame j (List.mem_cons_of_mem i hj))]
    rw [List.append_assoc]
    rfl

/-- Processing one whole block: the loop flushes the processed part of
the block through `add_latest_to_map` and continues behind it with a
fresh state. -/
theorem flGo_block (p : QPool) (kn : LatestKn) (latest : Int) (h : Nat) :
    ∀ (t rest : List Nat) (m : Finset Nat),
      (∀ i ∈ t, sameBlockB p kn h i = true) →
      (∀ r, rest.head? = some r → sameBlockB p kn h r = false) →
      flGo p kn latest (t ++ rest) (some h) true [h] m =
        flGo p kn latest rest none true []
          (addLatestToMap p m (procBlock p kn (h :: t)) latest) := by
  intro t rest m hsame hbound
  by_cases hkn : kn = LatestKn.latestPerArchByPriority
  case neg =>
    rw [flGo_walk_true p kn latest h t rest [h] m hsame
      (fun hbp => absurd hbp hkn)]
    have hproc : procBlock p kn (h :: t) = h :: t := by
      simp [procBlock, hkn]
    rw [hproc]
    cases rest with
    | nil => rfl
    | cons r rs =>
      have hnb : isNewBlock p kn h r = true := by
        have := hbound r rfl
        simpa [sameBlockB] using this
      show flGo p kn latest (r :: rs) (some h) true (h :: t) m = _
      simp only [flGo]
      rw [if_pos (by simp [hnb]), if_pos trivial]
  case pos =>
    subst hkn
    set q : Nat → Bool := fun i => decide (prioOf p h = prioOf p i) with hq
    have ht : t = t.takeWhile q ++ t.dropWhile q :=
      (List.takeWhile_append_dropWhile q t).symm
    have hproc : procBlock p LatestKn.latestPerArchByPriority (h :: t) =
        h :: t.takeWhile q := by
      simp [procBlock, prioLead, hq]
    rw [hproc]
    conv_lhs => rw [ht, List.append_assoc]
    rw [flGo_walk_true p _ latest h (t.takeWhile q) (t.dropWhile q ++ rest) [h] m
      (fun j hj => hsame j ((List.takeWhile_sublist q).mem hj))
      (fun _ j hj => by
        have := List.mem_takeWhile_imp hj
        rw [hq] at this
        simpa using this)]
    cases hdrop : t.dropWhile q with
    | nil =>
      cases rest with
      | nil => rfl
      | cons r rs =>
        have hnb : isNewBlock p LatestKn.latestPerArchByPriority h r = true := by
          have := hbound r rfl
          simpa [sameBlockB] using this
        show flGo p _ latest (r :: rs) (some h) true (h :: t.takeWhile q) m = _
        simp only [flGo]
        rw [if_pos (by simp [hnb]), if_pos trivial]
    | cons x t2 =>
      have hxmem : x ∈ t := (List.dropWhile_sublist q).mem (hdrop ▸ List.mem_cons_self x t2)
      have hxsame : isNewBlock p LatestKn.latestPerArchByPriority h x = false := by
        have := hsame x hxmem
        simpa [sameBlockB] using this
      have hxprio : prioOf p h ≠ prioOf p x := by
        have := dropWhile_head_false q t x (by rw [hdrop]; rfl)
        rw [hq] at this
        simpa using this
      show flGo p _ latest (x :: (t2 ++ rest)) (some h) true (h :: t.takeWhile q) m = _
      simp only [flGo]
      rw [if_neg (by simp [hxsame]), if_pos ⟨trivial, hxprio, trivial⟩]
      have ht2same : ∀ j ∈ t2, sameBlockB p LatestKn.latestPerArchByPriority h j = true := by
        intro j hj
        exact hsame j ((List.dropWhile_sublist q).mem (hdrop ▸ List.mem_cons_of_mem x hj))
      rw [flGo_walk_false p _ latest h t2 rest ((h :: t.takeWhile q) ++ [x]) _ ht2same]
      cases rest with
      | nil => rfl
      | cons r rs =>
        have hnb : isNewBlock p LatestKn.latestPerArchByPriority h r = true := by
          have := hbound r rfl
          simpa [sameBlockB] using this
        show flGo p _ latest (r :: rs) (some h) false _ _ = _
        simp only [flGo]
        rw [if_pos (by simp [hnb]), if_neg (by simp)]

/-- `flGo_block` with the block split off by `takeWhile`/`dropWhile`. -/
theorem flGo_block_split (p : QPool) (kn : LatestKn) (latest : Int) (h : Nat)
    (xs : List Nat) (m : Finset Nat) :
    flGo p kn latest xs (some h) true [h] m =
      flGo p kn latest (xs.dropWhile (sameBlockB p kn h)) none true []
        (addLatestToMap p m
          (procBlock p kn (h :: xs.takeWhile (sameBlockB p kn h))) latest) := by
  conv_lhs => rw [← List.takeWhile_append_dropWhile (sameBlockB p kn h) xs]
  exact flGo_block p kn latest h _ _ m
    (fun i hi => List.mem_takeWhile_imp hi)
    (fun r hr => dropWhile_head_false _ _ _ hr)

/-- The grouping loop equals a fold of `add_latest_to_map` over the
processed parts of the blocks. -/
theorem flGo_chunks (p : QPool) (kn : LatestKn) (latest : Int) :
    ∀ (n : Nat) (l : List Nat) (m : Finset Nat), l.length ≤ n →
      flGo p kn latest l none true [] m =
        (chunkBy (sameBlockB p kn) l).foldl
          (fun m B => addLatestToMap p m (procBlock p kn B) latest) m := by
  intro n
  induction n with
  | zero =>
    intro l m hl
    rw [List.length_eq_zero.mp (Nat.le_zero.mp hl)]
    rw [show chunkBy (sameBlockB p kn) ([] : List Nat) = [] from by rw [chunkBy]]
    rfl
  | succ n ih =>
    intro l m hl
    cases l with
    | nil =>
      rw [show chunkBy (sameBlockB p kn) ([] : List Nat) = [] from by rw [chunkBy]]
      rfl
    | cons h xs =>
      show flGo p kn latest xs (some h) true [h] m = _
      rw [flGo_block_split p kn latest h xs m]
      rw [ih (xs.dropWhile (sameBlockB p kn h)) _
        (by
          have := List.Sublist.length_le (List.dropWhile_sublist (sameBlockB p kn h) (l := xs))
          simp only [List.length_cons] at hl
          omega)]
      rw [show chunkBy (sameBlockB p kn) (h :: xs) =
        (h :: xs.takeWhile (sameBlockB p kn h)) ::
          chunkBy (sameBlockB p kn) (xs.dropWhile (sameBlockB p kn h)) from by
        rw [chunkBy]]
      rw [List.foldl_cons]

/-! ## Claim C6: `add_latest_to_map` keeps the first-N selection -/

/-- Once the distinct-version counter reaches a positive `latest`, the
walk keeps nothing further (the counter never decreases). -/
theorem keptGo_stop (p : QPool) (latest : Int) (hpos : 0 < latest) :
    ∀ (l : List Nat) (prev : Nat) (vc : Int), latest ≤ vc →
      keptGo p latest l prev vc = [] := by
  intro l
  induction l with
  | nil => intro prev vc _; rfl
  | cons i is ih =>
    intro prev vc hvc
    simp only [keptGo]
    have hno : ¬(if 0 < latest then
        ((if (psolv p i).evr ≠ prev then vc + 1 else vc) < latest)
      else ¬((if (psolv p i).evr ≠ prev then vc + 1 else vc) < -latest)) := by
      rw [if_pos hpos]
      split <;> omega
    rw [if_neg hno]
    exact ih _ _ (by split <;> omega)

/-- The early-returning accumulator walk of `add_latest_to_map` inserts
exactly the elements `keptGo` lists. -/
theorem addLatestGo_eq_keptGo (p : QPool) (latest : Int) :
    ∀ (l : List Nat) (prev : Nat) (vc : Int) (m : Finset Nat),
      addLatestGo p latest l prev vc m = m ∪ (keptGo p latest l prev vc).toFinset := by
  intro l
  induction l with
  | nil => intro prev vc m; simp [addLatestGo, keptGo]
  | cons i is ih =>
    intro prev vc m
    simp only [addLatestGo, keptGo]
    set vc2 : Int := if (psolv p i).evr ≠ prev then vc + 1 else vc with hvc2
    by_cases hpos : 0 < latest
    · rw [if_pos hpos]
      by_cases hlt : vc2 < latest
      · rw [if_neg (show ¬¬(vc2 < latest) from not_not_intro hlt)]
        rw [if_pos (show (if 0 < latest then vc2 < latest else ¬(vc2 < -latest)) from by
          rw [if_pos hpos]; exact hlt)]
        rw [ih]
        simp [Finset.union_insert, Finset.insert_union]
      · rw [if_pos (show ¬(vc2 < latest) from hlt)]
        rw [if_neg (show ¬(if 0 < latest then vc2 < latest else ¬(vc2 < -latest)) from by
          rw [if_pos hpos]; exact hlt)]
        rw [keptGo_stop p latest hpos is _ _ (by omega)]
        simp
    · rw [if_neg hpos]
      by_cases hlt : vc2 < -latest
      · rw [if_pos hlt]
        rw [if_neg (show ¬(if 0 < latest then vc2 < latest else ¬(vc2 < -latest)) from by
          rw [if_neg hpos]; exact not_not_intro hlt)]
        rw [ih]
      · rw [if_neg hlt]
        rw [if_pos (show (if 0 < latest then vc2 < latest else ¬(vc2 < -latest)) from by
          rw [if_neg hpos]; exact hlt)]
        rw [ih]
        simp [Finset.union_insert, Finset.insert_union]

/-- `firstDistinct` collapses a duplicated head. -/
theorem firstDistinct_cons_dup (a : Nat) (l : List Nat) :
    firstDistinct (a :: a :: l) = firstDistinct (a :: l) := by
  rw [firstDistinct, firstDistinct]
  simp

/-- `firstDistinct` keeps exactly the values of the list. -/
theorem mem_firstDistinct :
    ∀ (n : Nat) (l : List Nat), l.length ≤ n →
      ∀ a, a ∈ firstDistinct l ↔ a ∈ l := by
  intro n
  induction n with
  | zero =>
    intro l hl a
    rw [List.length_eq_zero.mp (Nat.le_zero.mp hl)]
    rw [firstDistinct]
  | succ n ih =>
    intro l hl a
    cases l with
    | nil => rw [firstDistinct]
    | cons e es =>
      rw [firstDistinct]
      simp only [List.mem_cons]
      constructor
      · rintro (rfl | hmem)
        · exact Or.inl rfl
        · rcases (ih _ (by
            have := List.length_filter_le (fun x => x ≠ e) es
            simp only [List.length_cons] at hl
            omega) a).mp hmem with hmem2
          exact Or.inr (List.mem_of_mem_filter hmem2)
      · rintro (rfl | hmem)
        · exact Or.inl rfl
        · by_cases hae : a = e
          · exact Or.inl hae
          · refine Or.inr ((ih _ (by
              have := List.length_filter_le (fun x => x ≠ e) es
              simp only [List.length_cons] at hl
              omega) a).mpr ?_)
            exact List.mem_filter.mpr ⟨hmem, by simpa using hae⟩

/-- A present value lies among the first `n` entries exactly when its
first index is below `n`. -/
theorem mem_take_iff_indexOf_lt (a : Nat) :
    ∀ (l : List Nat) (n : Nat), a ∈ l →
      (a ∈ l.take n ↔ l.indexOf a < n) := by
  intro l
  induction l with
  | nil => intro n h; cases h
  | cons b bs ih =>
    intro n hmem
    cases n with
    | zero => simp
    | succ n =>
      by_cases hab : a = b
      · subst hab
        simp [List.indexOf_cons_self]
      · have hmem' : a ∈ bs := by
          rcases List.mem_cons.mp hmem with h | h
          · exact absurd h hab
          · exact h
        rw [List.take_succ_cons]
        rw [show (b :: bs).indexOf a = bs.indexOf a + 1 from by
          rw [List.indexOf_cons]
          have hba : (b == a) = false := by simp [Ne.symm hab]
          rw [hba]
          rfl]
        simp only [List.mem_cons]
        constructor
        · rintro (h | h)
          · exact absurd h hab
          · exact Nat.succ_lt_succ ((ih n hmem').mp h)
        · intro h
          exact Or.inr ((ih n hmem').mpr (Nat.lt_of_succ_lt_succ h))

/-- Unfolding equation of `keptGo` stated through `latCond`. -/
theorem keptGo_cons (p : QPool) (latest : Int) (x : Nat) (xs : List Nat)
    (prev : Nat) (vc : Int) :
    keptGo p latest (x :: xs) prev vc =
      if latCond latest (if (psolv p x).evr ≠ prev then vc + 1 else vc) then
        x :: keptGo p latest xs ((psolv p x).evr)
          (if (psolv p x).evr ≠ prev then vc + 1 else vc)
      else keptGo p latest xs ((psolv p x).evr)
        (if (psolv p x).evr ≠ prev then vc + 1 else vc) := rfl

/-- On a walk whose evrs are rank-descending with an injective rank, the
kept elements are exactly those whose evr's first-occurrence index (in
the distinct evrs of `prev` followed by the walk) keeps `latCond`
satisfied when added to the starting counter. -/
theorem keptGo_char (p : QPool) (latest : Int) :
    ∀ (l : List Nat) (prev : Nat) (vc : Int),
      ((prev :: l.map (fun i => (psolv p i).evr)).Pairwise
        (fun a b => p.evrRank b ≤ p.evrRank a)) →
      (∀ a ∈ prev :: l.map (fun i => (psolv p i).evr),
        ∀ b ∈ prev :: l.map (fun i => (psolv p i).evr),
        p.evrRank a = p.evrRank b → a = b) →
      keptGo p latest l prev vc =
        l.filter (fun y => decide (latCond latest
          ((((firstDistinct (prev :: l.map (fun i => (psolv p i).evr))).indexOf
            ((psolv p y).evr) : Nat) : Int) + vc))) := by
  intro l
  induction l with
  | nil => intro prev vc _ _; rfl
  | cons x xs ih =>
    intro prev vc hpw hinj
    rw [keptGo_cons, List.filter_cons]
    by_cases he : (psolv p x).evr = prev
    · have hvc2 : (if (psolv p x).evr ≠ prev then vc + 1 else vc) = vc :=
        if_neg (not_not_intro he)
      rw [hvc2]
      have hfd : firstDistinct (prev :: (x :: xs).map (fun i => (psolv p i).evr)) =
          firstDistinct (prev :: xs.map (fun i => (psolv p i).evr)) := by
        simp only [List.map_cons, he]
        exact firstDistinct_cons_dup prev _
      have hsub : List.Sublist (prev :: xs.map (fun i => (psolv p i).evr))
          (prev :: (x :: xs).map (fun i => (psolv p i).evr)) := by
        simp only [List.map_cons]
        exact List.Sublist.cons₂ prev (List.sublist_cons_self _ _)
      have hih := ih prev vc (hpw.sublist hsub)
        (fun a ha b hb hr => hinj a (hsub.mem ha) b (hsub.mem hb) hr)
      have hidx0 : (firstDistinct (prev :: (x :: xs).map
          (fun i => (psolv p i).evr))).indexOf ((psolv p x).evr) = 0 := by
        rw [hfd, he, firstDistinct, List.indexOf_cons_self]
      rw [hidx0]
      have harg : (((0 : Nat) : Int) + vc) = vc := by omega
      rw [harg]
      have htail : ∀ y ∈ xs,
          (decide (latCond latest
            ((((firstDistinct (prev :: (x :: xs).map (fun i => (psolv p i).evr))).indexOf
              ((psolv p y).evr) : Nat) : Int) + vc))) =
          (decide (latCond latest
            ((((firstDistinct (prev :: xs.map (fun i => (psolv p i).evr))).indexOf
              ((psolv p y).evr) : Nat) : Int) + vc))) := by
        intro y _
        rw [hfd]
      by_cases hc : latCond latest vc
      · rw [if_pos hc, if_pos (decide_eq_true hc), he, hih]
        rw [List.filter_congr htail]
      · rw [if_neg hc, if_neg (by simp only [decide_eq_true_eq]; exact hc), he, hih]
        rw [List.filter_congr htail]
    · have hvc2 : (if (psolv p x).evr ≠ prev then vc + 1 else vc) = vc + 1 :=
        if_pos he
      rw [hvc2]
      have hprevnot : prev ∉ (x :: xs).map (fun i => (psolv p i).evr) := by
        intro hmem
        simp only [List.map_cons, List.mem_cons] at hmem
        rcases hmem with h | h
        · exact he h.symm
        · rcases List.pairwise_cons.mp hpw with ⟨h1, hpw2⟩
          rcases List.pairwise_cons.mp hpw2 with ⟨h2, _⟩
          have ha : p.evrRank ((psolv p x).evr) ≤ p.evrRank prev :=
            h1 _ (List.mem_cons_self _ _)
          have hb : p.evrRank prev ≤ p.evrRank ((psolv p x).evr) := h2 _ h
          have heq : p.evrRank ((psolv p x).evr) = p.evrRank prev := le_antisymm ha hb
          have := hinj ((psolv p x).evr)
            (List.mem_cons_of_mem _ (by simp))
            prev (List.mem_cons_self _ _) heq
          exact he this
      have hfil : (((x :: xs).map (fun i => (psolv p i).evr)).filter
          (fun v => v ≠ prev)) = (x :: xs).map (fun i => (psolv p i).evr) :=
        List.filter_eq_self.mpr (fun a ha =>
          decide_eq_true (fun hap => hprevnot (hap ▸ ha)))
      have hfd : firstDistinct (prev :: (x :: xs).map (fun i => (psolv p i).evr)) =
          prev :: firstDistinct ((x :: xs).map (fun i => (psolv p i).evr)) := by
        rw [firstDistinct, hfil]
      have hidx : ∀ w : Nat, w ≠ prev →
          (prev :: firstDistinct ((x :: xs).map (fun i => (psolv p i).evr))).indexOf w =
            (firstDistinct ((x :: xs).map (fun i => (psolv p i).evr))).indexOf w + 1 := by
        intro w hw
        rw [List.indexOf_cons]
        have hbw : (prev == w) = false := by simpa using (Ne.symm hw)
        rw [hbw]
        rfl
      have hFx : (firstDistinct ((x :: xs).map (fun i => (psolv p i).evr))).indexOf
          ((psolv p x).evr) = 0 := by
        simp only [List.map_cons]
        rw [firstDistinct, List.indexOf_cons_self]
      have hheadidx : (firstDistinct (prev :: (x :: xs).map
          (fun i => (psolv p i).evr))).indexOf ((psolv p x).evr) = 1 := by
        rw [hfd, hidx _ he, hFx]
      rw [hheadidx]
      have harg : (((1 : Nat) : Int) + vc) = vc + 1 := by omega
      rw [harg]
      have hsub : List.Sublist ((psolv p x).evr :: xs.map (fun i => (psolv p i).evr))
          (prev :: (x :: xs).map (fun i => (psolv p i).evr)) := by
        simp only [List.map_cons]
        exact List.sublist_cons_self _ _
      have hih := ih ((psolv p x).evr) (vc + 1) (hpw.sublist hsub)
        (fun a ha b hb hr => hinj a (hsub.mem ha) b (hsub.mem hb) hr)
      have htail : ∀ y ∈ xs,
          (decide (latCond latest
            ((((firstDistinct (prev :: (x :: xs).map (fun i => (psolv p i).evr))).indexOf
              ((psolv p y).evr) : Nat) : Int) + vc))) =
          (decide (latCond latest
            ((((firstDistinct ((psolv p x).evr :: xs.map (fun i => (psolv p i).evr))).indexOf
              ((psolv p y).evr) : Nat) : Int) + (vc + 1)))) := by
        intro y hy
        have hyne : (psolv p y).evr ≠ prev := by
          intro hyp
          exact hprevnot (hyp ▸ (by
            simp only [List.map_cons, List.mem_cons]
            exact Or.inr (List.mem_map_of_mem _ hy)))
        rw [hfd, hidx _ hyne]
        have : ((((firstDistinct ((x :: xs).map (fun i => (psolv p i).evr))).indexOf
            ((psolv p y).evr) + 1 : Nat)) : Int) + vc =
          ((((firstDistinct ((x :: xs).map (fun i => (psolv p i).evr))).indexOf
            ((psolv p y).evr) : Nat)) : Int) + (vc + 1) := by
          push_cast
          omega
        rw [this]
        simp only [List.map_cons]
      by_cases hc : latCond latest (vc + 1)
      · rw [if_pos hc, if_pos (decide_eq_true hc), hih]
        rw [List.filter_congr htail]
      · rw [if_neg hc, if_neg (by simp only [decide_eq_true_eq]; exact hc), hih]
        rw [List.filter_congr htail]

/-- On a block whose evrs are rank-descending with an injective rank,
`add_latest_to_map` adds exactly the members of the first `N` distinct
evrs (`N > 0`), resp. all members but those of the first `-N` distinct
evrs (`N < 0`). -/
theorem addLatestToMap_eq_keep (p : QPool) (latest : Int) (hn : latest ≠ 0)
    (B : List Nat) (m : Finset Nat)
    (hpw : (B.map (fun i => (psolv p i).evr)).Pairwise
      (fun a b => p.evrRank b ≤ p.evrRank a))
    (hinj : ∀ a ∈ B.map (fun i => (psolv p i).evr),
      ∀ b ∈ B.map (fun i => (psolv p i).evr),
      p.evrRank a = p.evrRank b → a = b) :
    addLatestToMap p m B latest =
      m ∪ (keepFirstNDistinct p latest B).toFinset := by
  cases B with
  | nil => simp [addLatestToMap, keepFirstNDistinct]
  | cons h t =>
    have hpw' : ((psolv p h).evr :: (h :: t).map (fun i => (psolv p i).evr)).Pairwise
        (fun a b => p.evrRank b ≤ p.evrRank a) := by
      refine List.pairwise_cons.mpr ⟨?_, hpw⟩
      intro b hb
      simp only [List.map_cons, List.mem_cons] at hb
      rcases hb with rfl | hb
      · exact le_refl _
      · have hpw2 := hpw
        rw [List.map_cons] at hpw2
        exact (List.pairwise_cons.mp hpw2).1 b hb
    have hmemf : ∀ a, a ∈ (psolv p h).evr :: (h :: t).map (fun i => (psolv p i).evr) →
        a ∈ (h :: t).map (fun i => (psolv p i).evr) := by
      intro a ha
      rcases List.mem_cons.mp ha with rfl | ha
      · exact List.mem_map_of_mem _ (List.mem_cons_self _ _)
      · exact ha
    have hinj' : ∀ a ∈ (psolv p h).evr :: (h :: t).map (fun i => (psolv p i).evr),
        ∀ b ∈ (psolv p h).evr :: (h :: t).map (fun i => (psolv p i).evr),
        p.evrRank a = p.evrRank b → a = b :=
      fun a ha b hb hr => hinj a (hmemf a ha) b (hmemf b hb) hr
    have hfd : firstDistinct ((psolv p h).evr :: (h :: t).map (fun i => (psolv p i).evr)) =
        firstDistinct ((h :: t).map (fun i => (psolv p i).evr)) := by
      simp only [List.map_cons]
      exact firstDistinct_cons_dup _ _
    rw [show addLatestToMap p m (h :: t) latest =
      addLatestGo p latest (h :: t) ((psolv p h).evr) 0 m from rfl]
    rw [addLatestGo_eq_keptGo]
    rw [keptGo_char p latest (h :: t) ((psolv p h).evr) 0 hpw' hinj']
    congr 2
    unfold keepFirstNDistinct
    dsimp only
    by_cases hpos : 0 < latest
    · rw [if_pos hpos]
      refine List.filter_congr ?_
      intro y hy
      have hymem : (psolv p y).evr ∈
          firstDistinct ((h :: t).map (fun i => (psolv p i).evr)) := by
        rw [mem_firstDistinct (((h :: t).map (fun i => (psolv p i).evr)).length) _
          le_rfl]
        exact List.mem_map_of_mem _ hy
      rw [hfd]
      simp only [decide_eq_decide]
      rw [mem_take_iff_indexOf_lt _ _ _ hymem]
      simp only [latCond, if_pos hpos]
      omega
    · rw [if_neg hpos]
      refine List.filter_congr ?_
      intro y hy
      have hymem : (psolv p y).evr ∈
          firstDistinct ((h :: t).map (fun i => (psolv p i).evr)) := by
        rw [mem_firstDistinct (((h :: t).map (fun i => (psolv p i).evr)).length) _
          le_rfl]
        exact List.mem_map_of_mem _ hy
      rw [hfd]
      simp only [decide_eq_decide]
      rw [mem_take_iff_indexOf_lt _ _ _ hymem]
      simp only [latCond, if_neg hpos]
      omega

/-! ## Claim C6: block shape of the sorted candidates -/

/-- When two solvables agree on the components the keyname compares
before the evr, comparator order implies descending evr rank. -/
theorem rank_desc_of_cmp (p : QPool) (kn : LatestKn) (a b : Nat)
    (hname : (psolv p a).name = (psolv p b).name)
    (harch : kn ≠ LatestKn.latest → (psolv p a).arch = (psolv p b).arch)
    (hprio : kn = LatestKn.latestPerArchByPriority →
      p.repoPriority (psolv p a).repo = p.repoPriority (psolv p b).repo)
    (hcmp : latestCmp p kn a b ≤ 0) :
    p.evrRank ((psolv p b).evr) ≤ p.evrRank ((psolv p a).evr) := by
  cases kn
  · simp only [latestCmp, filterLatestSortcmp] at hcmp
    rw [hname] at hcmp
    split_ifs at hcmp <;> omega
  · simp only [latestCmp, filterLatestSortcmpByarch] at hcmp
    rw [hname, harch (by decide)] at hcmp
    split_ifs at hcmp <;> omega
  · simp only [latestCmp, filterLatestSortcmpByarchBypriority] at hcmp
    rw [hname, harch (by decide), hprio rfl] at hcmp
    split_ifs at hcmp <;> omega

/-- Every chunk is a non-empty sublist whose members all relate to the
chunk's head. -/
theorem chunkBy_shape (same : Nat → Nat → Bool) :
    ∀ (n : Nat) (l : List Nat), l.length ≤ n →
      ∀ B ∈ chunkBy same l, ∃ bh bt, B = bh :: bt ∧
        List.Sublist B l ∧ (∀ i ∈ bt, same bh i = true) := by
  intro n
  induction n with
  | zero =>
    intro l hl B hB
    rw [List.length_eq_zero.mp (Nat.le_zero.mp hl)] at hB
    rw [show chunkBy same ([] : List Nat) = [] from by rw [chunkBy]] at hB
    cases hB
  | succ n ih =>
    intro l hl B hB
    cases l with
    | nil =>
      rw [show chunkBy same ([] : List Nat) = [] from by rw [chunkBy]] at hB
      cases hB
    | cons x xs =>
      rw [show chunkBy same (x :: xs) =
        (x :: xs.takeWhile (same x)) :: chunkBy same (xs.dropWhile (same x)) from by
        rw [chunkBy]] at hB
      rcases List.mem_cons.mp hB with rfl | hB
      · refine ⟨x, xs.takeWhile (same x), rfl, ?_, ?_⟩
        · exact List.Sublist.cons₂ x (List.takeWhile_sublist _)
        · intro i hi
          exact List.mem_takeWhile_imp hi
      · have hlen : (xs.dropWhile (same x)).length ≤ n := by
          have := List.Sublist.length_le (List.dropWhile_sublist (same x) (l := xs))
          simp only [List.length_cons] at hl
          omega
        rcases ih _ hlen B hB with ⟨bh, bt, hBe, hBsub, hsm⟩
        exact ⟨bh, bt, hBe,
          hBsub.trans ((List.dropWhile_sublist _).trans (List.sublist_cons_self _ _)),
          hsm⟩

/-- The chunks concatenate back to the original list. -/
theorem chunkBy_flatten (same : Nat → Nat → Bool) :
    ∀ (n : Nat) (l : List Nat), l.length ≤ n →
      (chunkBy same l).flatten = l := by
  intro n
  induction n with
  | zero =>
    intro l hl
    rw [List.length_eq_zero.mp (Nat.le_zero.mp hl)]
    rw [show chunkBy same ([] : List Nat) = [] from by rw [chunkBy]]
    rfl
  | succ n ih =>
    intro l hl
    cases l with
    | nil =>
      rw [show chunkBy same ([] : List Nat) = [] from by rw [chunkBy]]
      rfl
    | cons x xs =>
      rw [show chunkBy same (x :: xs) =
        (x :: xs.takeWhile (same x)) :: chunkBy same (xs.dropWhile (same x)) from by
        rw [chunkBy]]
      rw [List.flatten_cons]
      rw [ih _ (by
        have := List.Sublist.length_le (List.dropWhile_sublist (same x) (l := xs))
        simp only [List.length_cons] at hl
        omega)]
      rw [List.cons_append, List.takeWhile_append_dropWhile]

/-- Folding unions from an arbitrary start. -/
theorem foldl_union_eq (a : Finset Nat) :
    ∀ ls : List (List Nat),
      ls.foldl (fun m l => m ∪ l.toFinset) a = a ∪ unionOf ls := by
  intro ls
  induction ls generalizing a with
  | nil => simp [unionOf]
  | cons l ls ih =>
    show List.foldl _ (a ∪ l.toFinset) ls = _
    rw [ih]
    have h2 : unionOf (l :: ls) = l.toFinset ∪ unionOf ls := by
      show List.foldl _ (∅ ∪ l.toFinset) ls = _
      rw [ih]
      simp
    rw [h2, Finset.union_assoc]

/-- Membership in a union of lists. -/
theorem mem_unionOf (x : Nat) :
    ∀ ls : List (List Nat), x ∈ unionOf ls ↔ ∃ l ∈ ls, x ∈ l := by
  intro ls
  induction ls with
  | nil => simp [unionOf]
  | cons l ls ih =>
    have h2 : unionOf (l :: ls) = l.toFinset ∪ unionOf ls := by
      show List.foldl _ (∅ ∪ l.toFinset) ls = _
      rw [foldl_union_eq]
      simp
    rw [h2]
    simp only [Finset.mem_union, List.mem_toFinset, ih, List.mem_cons]
    constructor
    · rintro (h | ⟨l2, hl2, hx⟩)
      · exact ⟨l, Or.inl rfl, h⟩
      · exact ⟨l2, Or.inr hl2, hx⟩
    · rintro ⟨l2, (rfl | hl2), hx⟩
      · exact Or.inl hx
      · exact Or.inr ⟨l2, hl2, hx⟩

/-- The union of a list of lists is the finset of its concatenation. -/
theorem unionOf_eq_flatten (ls : List (List Nat)) :
    unionOf ls = ls.flatten.toFinset := by
  ext x
  rw [mem_unionOf]
  simp [List.mem_flatten]

/-- With pairwise-disjoint non-empty lists, a common member forces the
same list. -/
theorem disjoint_mem_unique (x : Nat) :
    ∀ ls : List (List Nat), ls.Pairwise List.Disjoint →
      ∀ B ∈ ls, ∀ B2 ∈ ls, x ∈ B → x ∈ B2 → B = B2 := by
  intro ls
  induction ls with
  | nil => intro _ B hB; cases hB
  | cons C cs ih =>
    intro hpw B hB B2 hB2 hxB hxB2
    rcases List.pairwise_cons.mp hpw with ⟨hd, hpw2⟩
    rcases List.mem_cons.mp hB with rfl | hB'
    · rcases List.mem_cons.mp hB2 with rfl | hB2'
      · rfl
      · exact absurd hxB2 (hd B2 hB2' hxB)
    · rcases List.mem_cons.mp hB2 with rfl | hB2'
      · exact absurd hxB (hd B hB' hxB2)
      · exact ih hpw2 B hB' B2 hB2' hxB hxB2

/-- The accumulator fold of the grouping loop, expressed through
`keepFirstNDistinct` on blocks satisfying the rank hypotheses. -/
theorem foldl_addLatest_eq (p : QPool) (kn : LatestKn) (latest : Int)
    (hn : latest ≠ 0) :
    ∀ (Bs : List (List Nat)) (m : Finset Nat),
      (∀ B ∈ Bs,
        ((procBlock p kn B).map (fun i => (psolv p i).evr)).Pairwise
          (fun a b => p.evrRank b ≤ p.evrRank a) ∧
        (∀ a ∈ (procBlock p kn B).map (fun i => (psolv p i).evr),
          ∀ b ∈ (procBlock p kn B).map (fun i => (psolv p i).evr),
          p.evrRank a = p.evrRank b → a = b)) →
      Bs.foldl (fun m B => addLatestToMap p m (procBlock p kn B) latest) m =
        m ∪ unionOf (Bs.map (fun B => keepFirstNDistinct p latest (procBlock p kn B))) := by
  intro Bs
  induction Bs with
  | nil => intro m _; simp [unionOf]
  | cons B Bs ih =>
    intro m hB
    rw [List.foldl_cons]
    rw [addLatestToMap_eq_keep p latest hn _ m (hB B (List.mem_cons_self _ _)).1
      (hB B (List.mem_cons_self _ _)).2]
    rw [ih _ (fun B2 hB2 => hB B2 (List.mem_cons_of_mem _ hB2))]
    rw [List.map_cons]
    have h2 : unionOf ((keepFirstNDistinct p latest (procBlock p kn B)) ::
        Bs.map (fun B => keepFirstNDistinct p latest (procBlock p kn B))) =
        (keepFirstNDistinct p latest (procBlock p kn B)).toFinset ∪
          unionOf (Bs.map (fun B => keepFirstNDistinct p latest (procBlock p kn B))) := by
      show List.foldl _ (∅ ∪ _) _ = _
      rw [foldl_union_eq]
      simp
    rw [h2, Finset.union_assoc]

/-- What `sameBlockB` says about the two solvables. -/
theorem sameBlockB_eqs (p : QPool) (kn : LatestKn) (h i : Nat)
    (hs : sameBlockB p kn h i = true) :
    (psolv p h).name = (psolv p i).name ∧
    (kn ≠ LatestKn.latest → (psolv p h).arch = (psolv p i).arch) := by
  simp only [sameBlockB, isNewBlock, Bool.not_eq_true', decide_eq_false_iff_not] at hs
  push_neg at hs
  exact hs

/-- The processed part of a block is a sublist of the block. -/
theorem procBlock_sublist (p : QPool) (kn : LatestKn) (B : List Nat) :
    List.Sublist (procBlock p kn B) B := by
  unfold procBlock
  split
  · cases B with
    | nil => simp [prioLead]
    | cons h t =>
      show List.Sublist (h :: t.takeWhile _) (h :: t)
      exact List.Sublist.cons₂ h (List.takeWhile_sublist _)
  · exact List.Sublist.refl _

/-- The first-N selection of a block only contains block members. -/
theorem mem_of_mem_keep (p : QPool) (n : Int) (B : List Nat) (x : Nat)
    (h : x ∈ keepFirstNDistinct p n B) : x ∈ B := by
  unfold keepFirstNDistinct at h
  dsimp only at h
  split at h
  · exact (List.mem_filter.mp h).1
  · exact (List.mem_filter.mp h).1

/-- For positive `N`, the first-`N` and first-`-N` selections of a block
partition its members. -/
theorem keep_partition (p : QPool) (n : Int) (hn : 0 < n) (B : List Nat) :
    (keepFirstNDistinct p n B).toFinset ∪ (keepFirstNDistinct p (-n) B).toFinset =
      B.toFinset ∧
    (keepFirstNDistinct p n B).toFinset ∩ (keepFirstNDistinct p (-n) B).toFinset =
      ∅ := by
  unfold keepFirstNDistinct
  dsimp only
  rw [if_pos hn, if_neg (by omega : ¬((0 : Int) < -n)), neg_neg]
  constructor
  · ext x
    simp only [Finset.mem_union, List.mem_toFinset, List.mem_filter,
      decide_eq_true_eq]
    constructor
    · rintro (⟨hx, _⟩ | ⟨hx, _⟩) <;> exact hx
    · intro hx
      by_cases hc : (psolv p x).evr ∈
          (firstDistinct (B.map (fun i => (psolv p i).evr))).take n.toNat
      · exact Or.inl ⟨hx, by simpa using hc⟩
      · exact Or.inr ⟨hx, by simpa using hc⟩
  · ext x
    simp only [Finset.mem_inter, List.mem_toFinset, List.mem_filter,
      decide_eq_true_eq, Finset.not_mem_empty, iff_false]
    rintro ⟨⟨_, hc⟩, ⟨_, hnc⟩⟩
    exact absurd hc (by simpa using hnc)

/-- Every block of the sorted candidate list satisfies the rank
hypotheses of `addLatestToMap_eq_keep` on its processed part. -/
theorem blockHyps_of_sorted (p : QPool) (kn : LatestKn) (result : Finset Nat)
    (hinj : ∀ a ∈ evrsOf p result, ∀ b ∈ evrsOf p result,
      p.evrRank a = p.evrRank b → a = b) :
    ∀ B ∈ chunkBy (sameBlockB p kn)
        (sortByCmp (latestCmp p kn) (result.sort (· ≤ ·))),
      ((procBlock p kn B).map (fun i => (psolv p i).evr)).Pairwise
        (fun a b => p.evrRank b ≤ p.evrRank a) ∧
      (∀ a ∈ (procBlock p kn B).map (fun i => (psolv p i).evr),
        ∀ b ∈ (procBlock p kn B).map (fun i => (psolv p i).evr),
        p.evrRank a = p.evrRank b → a = b) := by
  intro B hB
  obtain ⟨bh, bt, rfl, hBsub, hsame⟩ :=
    chunkBy_shape (sameBlockB p kn)
      (sortByCmp (latestCmp p kn) (result.sort (· ≤ ·))).length _ le_rfl B hB
  have hPBsub : List.Sublist (procBlock p kn (bh :: bt)) (bh :: bt) :=
    procBlock_sublist p kn _
  have hmemres : ∀ i ∈ procBlock p kn (bh :: bt), i ∈ result := by
    intro i hi
    have h1 : i ∈ sortByCmp (latestCmp p kn) (result.sort (· ≤ ·)) :=
      hBsub.subset (hPBsub.subset hi)
    have h2 : i ∈ result.sort (· ≤ ·) := (sortByCmp_perm _ _).subset h1
    exact (Finset.mem_sort _).mp h2
  have hmemfacts : ∀ i ∈ procBlock p kn (bh :: bt),
      (psolv p bh).name = (psolv p i).name ∧
      (kn ≠ LatestKn.latest → (psolv p bh).arch = (psolv p i).arch) ∧
      (kn = LatestKn.latestPerArchByPriority → prioOf p bh = prioOf p i) := by
    intro i hi
    by_cases hkn : kn = LatestKn.latestPerArchByPriority
    · subst hkn
      have hPB : procBlock p LatestKn.latestPerArchByPriority (bh :: bt) =
          bh :: bt.takeWhile (fun i => decide (prioOf p bh = prioOf p i)) := by
        simp [procBlock, prioLead]
      rw [hPB] at hi
      rcases List.mem_cons.mp hi with rfl | hi2
      · exact ⟨rfl, fun _ => rfl, fun _ => rfl⟩
      · have hmemt : i ∈ bt := (List.takeWhile_sublist _).subset hi2
        rcases sameBlockB_eqs p _ bh i (hsame i hmemt) with ⟨h1, h2⟩
        refine ⟨h1, h2, fun _ => ?_⟩
        have := List.mem_takeWhile_imp hi2
        simpa using this
    · have hPB : procBlock p kn (bh :: bt) = bh :: bt := by
        simp [procBlock, hkn]
      rw [hPB] at hi
      rcases List.mem_cons.mp hi with rfl | hi2
      · exact ⟨rfl, fun _ => rfl, fun h => absurd h hkn⟩
      · rcases sameBlockB_eqs p kn bh i (hsame i hi2) with ⟨h1, h2⟩
        exact ⟨h1, h2, fun h => absurd h hkn⟩
  have hcmpPB : (procBlock p kn (bh :: bt)).Pairwise
      (fun a b => latestCmp p kn a b ≤ 0) :=
    ((sortByCmp_sorted p kn (result.sort (· ≤ ·))).sublist hBsub).sublist hPBsub
  have hdesc : (procBlock p kn (bh :: bt)).Pairwise
      (fun a b => p.evrRank ((psolv p b).evr) ≤ p.evrRank ((psolv p a).evr)) := by
    refine List.Pairwise.imp_of_mem ?_ hcmpPB
    intro a b ha hb hab
    rcases hmemfacts a ha with ⟨hna, hara, hpa⟩
    rcases hmemfacts b hb with ⟨hnb, harb, hpb⟩
    refine rank_desc_of_cmp p kn a b (hna ▸ hnb) ?_ ?_ hab
    · intro hknl
      rw [← hara hknl, ← harb hknl]
    · intro hknp
      have := (hpa hknp).symm.trans (hpb hknp)
      simpa [prioOf] using this
  refine ⟨List.pairwise_map.mpr hdesc, ?_⟩
  intro a ha b hb hr
  rcases List.mem_map.mp ha with ⟨ia, hia, rfl⟩
  rcases List.mem_map.mp hb with ⟨ib, hib, rfl⟩
  exact hinj _ (Finset.mem_image.mpr ⟨ia, hmemres ia hia, rfl⟩)
    _ (Finset.mem_image.mpr ⟨ib, hmemres ib hib, rfl⟩) hr

/-- C6: for every latest keyname and nonzero `N` (with the pool's evr
ranks injective on the result's evrs — `pool_evrcmp` distinguishes
distinct evr ids), the latest-N evaluator equals the amended
specification: sort with the keyname's comparator, group into
(name[, arch]) blocks, restrict each block to its processed part — the
whole block, except for the by-priority keyname where only the leading
highest-priority run survives — and keep the members of the first `N`
distinct evrs (`N > 0`), resp. drop those of the first `-N` (`N < 0`).
The `N`/`-N` selections partition the processed ids, and for the
non-priority keynames the processed ids are the whole result and the
amended specification coincides with the claim's own grouping. -/
theorem C6_latestFilter (p : QPool) (kn : LatestKn) (n : Int) (result : Finset Nat)
    (hinj : ∀ a ∈ evrsOf p result, ∀ b ∈ evrsOf p result,
      p.evrRank a = p.evrRank b → a = b)
    (hn : n ≠ 0) :
    filterLatest p kn [n] result = specAmendedLatest p kn n result ∧
    (0 < n →
      filterLatest p kn [n] result ∩ filterLatest p kn [-n] result = ∅ ∧
      filterLatest p kn [n] result ∪ filterLatest p kn [-n] result =
        processedSet p kn result) ∧
    (kn ≠ LatestKn.latestPerArchByPriority →
      processedSet p kn result = result ∧
      specAmendedLatest p kn n result = claimLatestSpec p kn n result) := by
  have href : ∀ k : Int, k ≠ 0 →
      filterLatest p kn [k] result = specAmendedLatest p kn k result := by
    intro k hk
    show (if k = 0 then (∅ : Finset Nat)
      else flGo p kn k (sortByCmp (latestCmp p kn) (result.sort (· ≤ ·)))
        none true [] ∅) = _
    rw [if_neg hk]
    rw [flGo_chunks p kn k
      (sortByCmp (latestCmp p kn) (result.sort (· ≤ ·))).length _ ∅ le_rfl]
    rw [foldl_addLatest_eq p kn k hk _ ∅ (blockHyps_of_sorted p kn result hinj)]
    rw [Finset.empty_union]
    rfl
  refine ⟨href n hn, ?_, ?_⟩
  · intro hpos
    rw [href n hn, href (-n) (by omega)]
    have hnodup : (sortByCmp (latestCmp p kn) (result.sort (· ≤ ·))).Nodup :=
      (sortByCmp_perm _ _).nodup_iff.mpr (result.sort_nodup _)
    have hflat := chunkBy_flatten (sameBlockB p kn)
      (sortByCmp (latestCmp p kn) (result.sort (· ≤ ·))).length _ le_rfl
    have hnodupf : (chunkBy (sameBlockB p kn)
        (sortByCmp (latestCmp p kn) (result.sort (· ≤ ·)))).flatten.Nodup := by
      rw [hflat]
      exact hnodup
    have hdisj : (chunkBy (sameBlockB p kn)
        (sortByCmp (latestCmp p kn) (result.sort (· ≤ ·)))).Pairwise
        List.Disjoint :=
      (List.nodup_flatten.mp hnodupf).2
    constructor
    · ext x
      simp only [Finset.mem_inter, Finset.not_mem_empty, iff_false]
      rintro ⟨hx1, hx2⟩
      unfold specAmendedLatest at hx1 hx2
      rcases (mem_unionOf x _).mp hx1 with ⟨L1, hL1, hxL1⟩
      rcases (mem_unionOf x _).mp hx2 with ⟨L2, hL2, hxL2⟩
      rcases List.mem_map.mp hL1 with ⟨B1, hB1, rfl⟩
      rcases List.mem_map.mp hL2 with ⟨B2, hB2, rfl⟩
      have hxB1 : x ∈ B1 :=
        (procBlock_sublist p kn B1).subset (mem_of_mem_keep _ _ _ _ hxL1)
      have hxB2 : x ∈ B2 :=
        (procBlock_sublist p kn B2).subset (mem_of_mem_keep _ _ _ _ hxL2)
      have hBeq : B1 = B2 := disjoint_mem_unique x _ hdisj B1 hB1 B2 hB2 hxB1 hxB2
      subst hBeq
      have hpart := (keep_partition p n hpos (procBlock p kn B1)).2
      have hboth : x ∈ (keepFirstNDistinct p n (procBlock p kn B1)).toFinset ∩
          (keepFirstNDistinct p (-n) (procBlock p kn B1)).toFinset :=
        Finset.mem_inter.mpr
          ⟨List.mem_toFinset.mpr hxL1, List.mem_toFinset.mpr hxL2⟩
      rw [hpart] at hboth
      exact absurd hboth (Finset.not_mem_empty x)
    · ext x
      unfold specAmendedLatest processedSet
      simp only [Finset.mem_union]
      rw [mem_unionOf, mem_unionOf, mem_unionOf]
      constructor
      · rintro (⟨L, hL, hxL⟩ | ⟨L, hL, hxL⟩)
        · rcases List.mem_map.mp hL with ⟨B, hB, rfl⟩
          exact ⟨procBlock p kn B, List.mem_map_of_mem _ hB,
            mem_of_mem_keep _ _ _ _ hxL⟩
        · rcases List.mem_map.mp hL with ⟨B, hB, rfl⟩
          exact ⟨procBlock p kn B, List.mem_map_of_mem _ hB,
            mem_of_mem_keep _ _ _ _ hxL⟩
      · rintro ⟨L, hL, hxL⟩
        rcases List.mem_map.mp hL with ⟨B, hB, rfl⟩
        have hpart := (keep_partition p n hpos (procBlock p kn B)).1
        have hx : x ∈ (keepFirstNDistinct p n (procBlock p kn B)).toFinset ∪
            (keepFirstNDistinct p (-n) (procBlock p kn B)).toFinset := by
          rw [hpart]
          exact List.mem_toFinset.mpr hxL
        rcases Finset.mem_union.mp hx with hx | hx
        · exact Or.inl ⟨_, List.mem_map_of_mem _ hB, List.mem_toFinset.mp hx⟩
        · exact Or.inr ⟨_, List.mem_map_of_mem _ hB, List.mem_toFinset.mp hx⟩
  · intro hkn
    constructor
    · unfold processedSet
      have hmap : (chunkBy (sameBlockB p kn)
          (sortByCmp (latestCmp p kn) (result.sort (· ≤ ·)))).map
            (procBlock p kn) =
          (chunkBy (sameBlockB p kn)
            (sortByCmp (latestCmp p kn) (result.sort (· ≤ ·)))).map id :=
        List.map_congr_left (fun B _ => by simp [procBlock, hkn])
      rw [hmap, List.map_id, unionOf_eq_flatten]
      rw [chunkBy_flatten (sameBlockB p kn)
        (sortByCmp (latestCmp p kn) (result.sort (· ≤ ·))).length _ le_rfl]
      rw [List.toFinset_eq_of_perm _ _ (sortByCmp_perm _ _)]
      exact Finset.sort_toFinset _ result
    · unfold specAmendedLatest claimLatestSpec
      have hsame : sameClaimBlock p kn = sameBlockB p kn := by
        funext h i
        simp [sameClaimBlock, hkn]
      rw [hsame]
      congr 1
      exact List.map_congr_left (fun B _ => by simp [procBlock, hkn])

/-- Witness for C6 at a concrete pool: two same-name same-arch solvables
with distinct evrs, keyname `LATEST_PER_ARCH`, `N = 1`. -/
theorem C6_latestFilter_witness :
    filterLatest poolPrio LatestKn.latestPerArch [1] {1, 2} =
      specAmendedLatest poolPrio LatestKn.latestPerArch 1 {1, 2} ∧
    ((0 : Int) < 1 →
      filterLatest poolPrio LatestKn.latestPerArch [1] {1, 2} ∩
        filterLatest poolPrio LatestKn.latestPerArch [-1] {1, 2} = ∅ ∧
      filterLatest poolPrio LatestKn.latestPerArch [1] {1, 2} ∪
        filterLatest poolPrio LatestKn.latestPerArch [-1] {1, 2} =
        processedSet poolPrio LatestKn.latestPerArch {1, 2}) ∧
    (LatestKn.latestPerArch ≠ LatestKn.latestPerArchByPriority →
      processedSet poolPrio LatestKn.latestPerArch {1, 2} = {1, 2} ∧
      specAmendedLatest poolPrio LatestKn.latestPerArch 1 {1, 2} =
        claimLatestSpec poolPrio LatestKn.latestPerArch 1 {1, 2}) :=
  C6_latestFilter poolPrio LatestKn.latestPerArch 1 {1, 2} (by decide) (by decide)

/-- `firstDistinct` on the empty list. -/
theorem firstDistinct_nil : firstDistinct [] = [] := by
  rw [firstDistinct]

/-- `firstDistinct` on a singleton. -/
theorem firstDistinct_single (a : Nat) : firstDistinct [a] = [a] := by
  rw [firstDistinct]
  show a :: firstDistinct [] = [a]
  rw [firstDistinct_nil]

/-- A singleton block survives any positive latest-N selection. -/
theorem keep_single (p : QPool) (n : Int) (hn : 0 < n) (x : Nat) :
    keepFirstNDistinct p n [x] = [x] := by
  unfold keepFirstNDistinct
  dsimp only
  rw [show [x].map (fun i => (psolv p i).evr) = [(psolv p x).evr] from rfl]
  rw [firstDistinct_single, if_pos hn, List.filter_cons]
  obtain ⟨m, hm⟩ : ∃ m, n.toNat = m + 1 := ⟨n.toNat - 1, by omega⟩
  rw [hm]
  simp

/-- The sort of the two-element result used by the C6 examples. -/
theorem sort_pair_12 : Finset.sort (· ≤ ·) ({1, 2} : Finset Nat) = [1, 2] := by
  show Finset.sort (· ≤ ·) (insert 1 {2}) = [1, 2]
  rw [Finset.sort_insert]
  · rw [Finset.sort_singleton]
  · intro b hb
    simp only [Finset.mem_singleton] at hb
    omega
  · decide

/-- Counterexample to C6 as claimed: for the by-priority keyname the
evaluator flushes only the leading highest-priority run of a block and
drops the rest, so the lower-priority solvable 2 is not kept although
the claim's grouping (blocks split at priority boundaries) keeps it. -/
theorem C6_counterexample :
    filterLatest poolPrio LatestKn.latestPerArchByPriority [1] {1, 2} = {1} ∧
    claimLatestSpec poolPrio LatestKn.latestPerArchByPriority 1 {1, 2} = {1, 2} ∧
    ({1} : Finset Nat) ≠ {1, 2} := by
  have hsortq : Finset.sort (· ≤ ·) ({1, 2} : Finset Nat) = [1, 2] := sort_pair_12
  have hsort : sortByCmp (latestCmp poolPrio LatestKn.latestPerArchByPriority)
      (Finset.sort (· ≤ ·) ({1, 2} : Finset Nat)) = [1, 2] := by
    rw [hsortq]
    decide
  refine ⟨?_, ?_, by decide⟩
  · show (if (1 : Int) = 0 then (∅ : Finset Nat)
      else flGo poolPrio LatestKn.latestPerArchByPriority 1
        (sortByCmp (latestCmp poolPrio LatestKn.latestPerArchByPriority)
          (Finset.sort (· ≤ ·) ({1, 2} : Finset Nat))) none true [] ∅) = {1}
    rw [if_neg (by decide), hsort]
    decide
  · unfold claimLatestSpec
    rw [hsort]
    have hc1 : chunkBy (sameClaimBlock poolPrio LatestKn.latestPerArchByPriority)
        [1, 2] = [[1], [2]] := by
      rw [chunkBy]
      rw [show List.takeWhile
        (sameClaimBlock poolPrio LatestKn.latestPerArchByPriority 1) [2] = []
        from by decide]
      rw [show List.dropWhile
        (sameClaimBlock poolPrio LatestKn.latestPerArchByPriority 1) [2] = [2]
        from by decide]
      rw [chunkBy]
      rw [show List.takeWhile
        (sameClaimBlock poolPrio LatestKn.latestPerArchByPriority 2) [] = []
        from rfl]
      rw [show List.dropWhile
        (sameClaimBlock poolPrio LatestKn.latestPerArchByPriority 2) [] = []
        from rfl]
      rw [show chunkBy (sameClaimBlock poolPrio LatestKn.latestPerArchByPriority)
        [] = [] from by rw [chunkBy]]
    rw [hc1, List.map_cons, List.map_cons, List.map_nil]
    rw [keep_single poolPrio 1 (by decide) 1, keep_single poolPrio 1 (by decide) 2]
    decide

/-! ## Claim C7 -/

/-- Scanning distributes over append, advancing the position. -/
theorem nevraScan_append (l1 l2 : List Char) (pos : Nat) (st : ScanSt) :
    nevraScan (l1 ++ l2) pos st =
      nevraScan l2 (pos + l1.length) (nevraScan l1 pos st) := by
  induction l1 generalizing pos st with
  | nil => simp [nevraScan]
  | cons c cs ih =>
    simp only [List.cons_append, nevraScan, List.length_cons, List.append_eq]
    rw [ih]
    congr 1
    omega

/-- Characters that are neither dash nor dot leave the scan state
unchanged. -/
theorem nevraScan_no_delims (l : List Char) (h : ∀ c ∈ l, c ≠ '-' ∧ c ≠ '.') :
    ∀ pos st, nevraScan l pos st = st := by
  induction l with
  | nil => intro pos st; rfl
  | cons c cs ih =>
    intro pos st
    have hc := h c (List.mem_cons_self c cs)
    simp only [nevraScan]
    rw [if_neg hc.1, if_neg hc.2]
    exact ih (fun d hd => h d (List.mem_cons_of_mem c hd)) (pos + 1) st

/-- Dash-free segments keep the dash delimiters and can only move the
dot delimiter. -/
theorem nevraScan_no_dash (l : List Char) (h : ∀ c ∈ l, c ≠ '-') :
    ∀ (pos : Nat) (e r a : Option Nat), ∃ a2,
      nevraScan l pos ⟨e, r, a⟩ = ⟨e, r, a2⟩ := by
  induction l with
  | nil => intro pos e r a; exact ⟨a, rfl⟩
  | cons c cs ih =>
    intro pos e r a
    have hc := h c (List.mem_cons_self c cs)
    have ih' := ih (fun d hd => h d (List.mem_cons_of_mem c hd))
    by_cases hdot : c = '.'
    · simp only [nevraScan]
      rw [if_neg hc, if_pos hdot]
      exact ih' (pos + 1) e r (some pos)
    · simp only [nevraScan]
      rw [if_neg hc, if_neg hdot]
      exact ih' (pos + 1) e r a

/-- The delimiter scan of a canonical `name-v-r.arch` pattern finds the
name/evr dash, the v/r dash and the arch dot. -/
theorem nevraScan_canonical (nm v rl ar : List Char)
    (hv : ∀ c ∈ v, c ≠ '-') (hrl : ∀ c ∈ rl, c ≠ '-')
    (har : ∀ c ∈ ar, c ≠ '-' ∧ c ≠ '.') :
    nevraScan (nm ++ '-' :: (v ++ '-' :: (rl ++ '.' :: ar))) 0 ⟨none, none, none⟩ =
      ⟨some nm.length, some (nm.length + 1 + v.length),
       some (nm.length + 1 + v.length + 1 + rl.length)⟩ := by
  rw [nevraScan_append]
  simp only [nevraScan, reduceIte]
  rw [nevraScan_append]
  obtain ⟨a2, ha2⟩ := nevraScan_no_dash v hv (0 + nm.length + 1)
    (nevraScan nm 0 ⟨none, none, none⟩).releaseDelim (some (0 + nm.length))
    (nevraScan nm 0 ⟨none, none, none⟩).archDelim
  rw [ha2]
  simp only [nevraScan, reduceIte]
  rw [nevraScan_append]
  obtain ⟨a3, ha3⟩ := nevraScan_no_dash rl hrl (0 + nm.length + 1 + v.length + 1)
    (some (0 + nm.length)) (some (0 + nm.length + 1 + v.length)) a2
  rw [ha3]
  simp only [nevraScan, reduceIte]
  rw [nevraScan_no_delims ar har]
  simp only [Nat.zero_add]
  rw [if_neg (show ¬('.' : Char) = '-' by decide)]

/-- A list without a zero-colon lead has no zero-epoch lead either. -/
theorem zeroEpochLead_false_of (l : List Char) (h : zeroColonLead l = false) :
    zeroEpochLead l = false := by
  cases l with
  | nil => rfl
  | cons c rest =>
    simp only [zeroEpochLead]
    by_cases hc : c = '0'
    · rw [if_pos hc]
      simp only [zeroColonLead] at h
      rw [if_neg (by rw [hc]; decide), if_pos hc] at h
      exact h
    · rw [if_neg hc]

/-- The zero-epoch strip loop is a no-op when the characters after the
delimiter carry no zero-epoch lead. -/
theorem stripEpochGo_no_zero (pat : List Char) (ed : Nat) :
    ∀ (fuel i : Nat), zeroEpochLead (pat.drop (ed + i)) = false →
      stripEpochGo pat fuel ed i = ed := by
  intro fuel
  induction fuel with
  | zero => intro i _; rfl
  | succ f ih =>
    intro i hz
    simp only [stripEpochGo, ← Nat.add_assoc]
    by_cases h0 : charAt pat (ed + i) = '0'
    · rw [if_pos h0]
      have hlt : ed + i < pat.length := by
        by_contra hge
        push_neg at hge
        rw [charAt, List.getD_eq_default _ _ hge] at h0
        exact absurd h0 (by decide)
      have hdrop : pat.drop (ed + i) = pat.get ⟨ed + i, hlt⟩ :: pat.drop (ed + i + 1) := by
        simpa using List.drop_eq_getElem_cons hlt
      have hget : pat.get ⟨ed + i, hlt⟩ = '0' := by
        rw [charAt, List.getD_eq_getElem _ _ hlt] at h0
        simpa using h0
      rw [hdrop, hget] at hz
      simp only [zeroEpochLead, if_pos rfl] at hz
      by_cases hcol : charAt pat (ed + i + 1) = ':'
      · exfalso
        have hlt2 : ed + i + 1 < pat.length := by
          by_contra hge
          push_neg at hge
          rw [charAt, List.getD_eq_default _ _ hge] at hcol
          exact absurd hcol (by decide)
        have hdrop2 : pat.drop (ed + i + 1) =
            pat.get ⟨ed + i + 1, hlt2⟩ :: pat.drop (ed + i + 2) := by
          simpa using List.drop_eq_getElem_cons hlt2
        have hget2 : pat.get ⟨ed + i + 1, hlt2⟩ = ':' := by
          rw [charAt, List.getD_eq_getElem _ _ hlt2] at hcol
          simpa using hcol
        rw [hdrop2, hget2] at hz
        simp [zeroColonLead] at hz
      · rw [if_neg hcol]
        apply ih
        have harith : ed + (i + 1) = ed + i + 1 := by omega
        rw [harith]
        exact zeroEpochLead_false_of _ hz
    · rw [if_neg h0]

/-- The zero-epoch strip entry point under the same condition. -/
theorem stripEpoch_no_zero (pat : List Char) (ed : Nat)
    (h : zeroEpochLead (pat.drop (ed + 1)) = false) :
    stripEpoch pat ed = ed :=
  stripEpochGo_no_zero pat ed (pat.length + 2) 1 h

/-- The zero-colon lead of `v ++ '-' :: xs` does not depend on `xs`. -/
theorem zeroColonLead_append_dash (v xs ys : List Char) :
    zeroColonLead (v ++ '-' :: xs) = zeroColonLead (v ++ '-' :: ys) := by
  induction v with
  | nil => simp [zeroColonLead]
  | cons c cs ih =>
    simp only [List.cons_append, zeroColonLead, List.append_eq]
    by_cases h1 : c = ':'
    · rw [if_pos h1, if_pos h1]
    · rw [if_neg h1, if_neg h1]
      by_cases h2 : c = '0'
      · rw [if_pos h2, if_pos h2, ih]
      · rw [if_neg h2, if_neg h2]

/-- The zero-epoch lead of `v ++ '-' :: xs` does not depend on `xs`. -/
theorem zeroEpochLead_append_dash (v xs ys : List Char) :
    zeroEpochLead (v ++ '-' :: xs) = zeroEpochLead (v ++ '-' :: ys) := by
  cases v with
  | nil => rfl
  | cons c cs =>
    simp only [List.cons_append, zeroEpochLead, List.append_eq]
    by_cases h : c = '0'
    · rw [if_pos h, if_pos h, zeroColonLead_append_dash]
    · rw [if_neg h, if_neg h]

/-- `NevraID::parse` inverts the canonical rendering: on a well-formed
`name-v-r.arch` pattern whose pieces are interned, it recovers exactly
the interned ids. -/
theorem parseNevra_canonical (p : QPool) (nm v rl ar : List Char)
    (n a e : Nat)
    (hnm0 : nm ≠ [])
    (hv : ∀ c ∈ v, c ≠ '-') (hv0 : v ≠ [])
    (hrl : ∀ c ∈ rl, c ≠ '-') (hrl0 : rl ≠ [])
    (har : ∀ c ∈ ar, c ≠ '-' ∧ c ≠ '.') (har0 : ar ≠ [])
    (hz : zeroEpochLead (v ++ '-' :: rl) = false)
    (hn : strId p nm = n) (hn0 : n ≠ 0)
    (he : strId p (v ++ '-' :: rl) = e) (he0 : e ≠ 0)
    (ha : strId p ar = a) (ha0 : a ≠ 0) :
    parseNevra p (nm ++ '-' :: (v ++ '-' :: (rl ++ '.' :: ar))) true =
      some ⟨n, a, e, []⟩ := by
  have hscan := nevraScan_canonical nm v rl ar hv hrl har
  have hvp : 0 < v.length := List.length_pos.mpr hv0
  have hrlp : 0 < rl.length := List.length_pos.mpr hrl0
  have harp : 0 < ar.length := List.length_pos.mpr har0
  have hnmp : 0 < nm.length := List.length_pos.mpr hnm0
  have hlen : (nm ++ '-' :: (v ++ '-' :: (rl ++ '.' :: ar))).length =
      nm.length + 1 + v.length + 1 + rl.length + 1 + ar.length := by
    simp [List.length_append]
    omega
  have hdrop1 : (nm ++ '-' :: (v ++ '-' :: (rl ++ '.' :: ar))).drop (nm.length + 1) =
      v ++ '-' :: (rl ++ '.' :: ar) := by
    have h1 : nm.length + 1 = nm.length + 1 := rfl
    calc (nm ++ '-' :: (v ++ '-' :: (rl ++ '.' :: ar))).drop (nm.length + 1)
        = ('-' :: (v ++ '-' :: (rl ++ '.' :: ar))).drop 1 := List.drop_append 1
      _ = v ++ '-' :: (rl ++ '.' :: ar) := rfl
  have hstrip : stripEpoch (nm ++ '-' :: (v ++ '-' :: (rl ++ '.' :: ar))) nm.length =
      nm.length := by
    apply stripEpoch_no_zero
    rw [hdrop1, zeroEpochLead_append_dash v (rl ++ '.' :: ar) rl]
    exact hz
  unfold parseNevra
  rw [hscan]
  simp only
  rw [if_neg (by omega : ¬(nm.length = 0))]
  rw [hstrip]
  rw [if_neg (by omega :
    ¬(nm.length + 1 + v.length ≤ nm.length + 1 ∨
      nm.length + 1 + v.length + 1 + rl.length ≤ nm.length + 1 + v.length + 1 ∨
      nm.length + 1 + v.length + 1 + rl.length =
        (nm ++ '-' :: (v ++ '-' :: (rl ++ '.' :: ar))).length - 1))]
  rw [List.take_left nm]
  rw [hn]
  rw [if_neg hn0]
  have hevrChars : ((nm ++ '-' :: (v ++ '-' :: (rl ++ '.' :: ar))).drop
      (nm.length + 1)).take (nm.length + 1 + v.length + 1 + rl.length - (nm.length + 1)) =
      v ++ '-' :: rl := by
    rw [hdrop1]
    have h2 : nm.length + 1 + v.length + 1 + rl.length - (nm.length + 1) =
        v.length + (1 + rl.length) := by omega
    rw [h2, List.take_append]
    congr 1
    rw [Nat.add_comm 1 rl.length]
    simp [List.take_left]
  rw [hevrChars, he]
  rw [if_neg he0]
  have hdrop2 : (nm ++ '-' :: (v ++ '-' :: (rl ++ '.' :: ar))).drop
      (nm.length + 1 + v.length + 1 + rl.length + 1) = ar := by
    have hassoc : nm ++ '-' :: (v ++ '-' :: (rl ++ '.' :: ar)) =
        (nm ++ '-' :: (v ++ '-' :: rl)) ++ '.' :: ar := by
      simp [List.append_assoc]
    have hAlen : (nm ++ '-' :: (v ++ '-' :: rl)).length =
        nm.length + 1 + v.length + 1 + rl.length := by
      simp [List.length_append]
      omega
    rw [hassoc]
    have h3 : nm.length + 1 + v.length + 1 + rl.length + 1 =
        (nm ++ '-' :: (v ++ '-' :: rl)).length + 1 := by omega
    rw [h3, List.drop_append 1]
    rfl
  rw [hdrop2, ha]
  rw [if_neg ha0]
  simp only [if_true]

/-- C7 (amended): for a solvable of the considered pool whose canonical
NEVRA string is well-formed (non-empty interned name, EVR of the strict
`version-release` shape without stray dashes or a zero-epoch prefix,
arch without dots or dashes) and whose `(name, evr, arch)` id triple is
unique among the considered solvables, a `NEVRA_STRICT|EQ` filter built
from that string reduces a fresh query's result to exactly that
solvable.  Without the uniqueness hypothesis the filter keeps every
considered solvable with the same id triple (see the counterexample). -/
theorem C7_nevraStrictRoundtrip (p : QPool) (sid : Nat) (fs : ExcludeFlags)
    (nm v rl ar : List Char)
    (hnm : idStr p (psolv p sid).name = nm) (hnm0 : nm ≠ [])
    (hevr : idStr p (psolv p sid).evr = v ++ '-' :: rl)
    (hv : ∀ c ∈ v, c ≠ '-') (hv0 : v ≠ [])
    (hrl : ∀ c ∈ rl, c ≠ '-') (hrl0 : rl ≠ [])
    (har : idStr p (psolv p sid).arch = ar)
    (har2 : ∀ c ∈ ar, c ≠ '-' ∧ c ≠ '.') (har0 : ar ≠ [])
    (hz : zeroEpochLead (v ++ '-' :: rl) = false)
    (hinN : strId p nm = (psolv p sid).name) (hN0 : (psolv p sid).name ≠ 0)
    (hinE : strId p (v ++ '-' :: rl) = (psolv p sid).evr)
    (hE0 : (psolv p sid).evr ≠ 0)
    (hinA : strId p ar = (psolv p sid).arch) (hA0 : (psolv p sid).arch ≠ 0)
    (hmem : sid ∈ initResult p fs)
    (huniq : ∀ t ∈ initResult p fs, (psolv p t).name = (psolv p sid).name →
      (psolv p t).arch = (psolv p sid).arch →
      (psolv p t).evr = (psolv p sid).evr → t = sid) :
    addFilterNevraStrict p (queryFresh fs []) HY_EQ
        (some (canonicalNevra p sid)) =
      .ok (0, ⟨true, fs, some {sid}, []⟩) := by
  have hcanon : canonicalNevra p sid = nm ++ '-' :: (v ++ '-' :: (rl ++ '.' :: ar)) := by
    show idStr p (psolv p sid).name ++
        '-' :: (idStr p (psolv p sid).evr ++ '.' :: idStr p (psolv p sid).arch) =
      nm ++ '-' :: (v ++ '-' :: (rl ++ '.' :: ar))
    rw [hnm, hevr, har]
    simp [List.append_assoc]
  have hparse := parseNevra_canonical p nm v rl ar (psolv p sid).name
    (psolv p sid).arch (psolv p sid).evr hnm0 hv hv0 hrl hrl0 har2 har0 hz
    hinN hN0 hinE hE0 hinA hA0
  have hC : collectNevraIds p true [some (canonicalNevra p sid)] =
      .ok [⟨(psolv p sid).name, (psolv p sid).arch, (psolv p sid).evr, []⟩] := by
    unfold collectNevraIds
    rw [hcanon, hparse]
    rfl
  have hfilter : (initResult p fs).filter (fun id =>
      ([(⟨(psolv p sid).name, (psolv p sid).arch, (psolv p sid).evr, []⟩ :
          NevraID)]).any (fun nid =>
        nid.name = (psolv p id).name ∧ nid.arch = (psolv p id).arch ∧
          nid.evr = (psolv p id).evr)) = {sid} := by
    ext t
    simp only [Finset.mem_filter, List.any_cons, List.any_nil, Bool.or_false,
      decide_eq_true_eq, Finset.mem_singleton]
    constructor
    · rintro ⟨ht, h1, h2, h3⟩
      exact huniq t ht h1.symm h2.symm h3.symm
    · rintro rfl
      exact ⟨hmem, rfl, rfl, rfl⟩
  have hC2 : collectNevraIds p
      (decide ¬(HY_EQ &&& HY_LT ≠ 0 ∨ HY_EQ &&& HY_GT ≠ 0))
      [some (canonicalNevra p sid)] =
      .ok [⟨(psolv p sid).name, (psolv p sid).arch, (psolv p sid).evr, []⟩] := hC
  have hfns : filterNevraStrict p HY_EQ [some (canonicalNevra p sid)]
      (initResult p fs) = .ok {sid} := by
    unfold filterNevraStrict
    dsimp only
    rw [show ([some (canonicalNevra p sid)].take
      (gStrvLength [some (canonicalNevra p sid)])) =
        [some (canonicalNevra p sid)] from rfl]
    rw [hC2]
    dsimp only
    simp only [List.isEmpty_cons, Bool.false_eq_true, if_false]
    rw [if_pos (by decide : ¬(HY_EQ &&& HY_LT ≠ 0 ∨ HY_EQ &&& HY_GT ≠ 0))]
    rw [if_neg (by decide : ¬(HY_EQ &&& HY_NOT ≠ 0))]
    rw [hfilter]
    rw [Finset.inter_eq_right.mpr (Finset.singleton_subset_iff.mpr hmem)]
  have happly : applyQ p (queryFresh fs []) =
      ⟨true, fs, some (initResult p fs), []⟩ := rfl
  unfold addFilterNevraStrict
  rw [if_neg (by decide)]
  dsimp only
  rw [happly]
  simp only [resultOf]
  rw [hfns]

/-- Witness for C7 on the one-solvable pool: the canonical NEVRA
`a-1-2.x` of solvable 1 round-trips to exactly `{1}`. -/
theorem C7_nevraStrictRoundtrip_witness :
    addFilterNevraStrict poolOne (queryFresh .applyExcludes []) HY_EQ
        (some (canonicalNevra poolOne 1)) =
      .ok (0, ⟨true, .applyExcludes, some {1}, []⟩) :=
  C7_nevraStrictRoundtrip poolOne 1 .applyExcludes ['a'] ['1'] ['2'] ['x']
    (by decide) (by decide) (by decide) (by decide) (by decide) (by decide)
    (by decide) (by decide) (by decide) (by decide) (by decide) (by decide)
    (by decide) (by decide) (by decide) (by decide) (by decide) (by decide)
    (by decide)

/-- Counterexample to C7 as stated: in a pool where solvables 1 and 2
share the same `(name, evr, arch)` ids (the same NEVRA in two
repositories), the `NEVRA_STRICT|EQ` filter built from solvable 1's
canonical NEVRA keeps both — the result is `{1, 2}`, not exactly the one
solvable. -/
theorem C7_counterexample :
    addFilterNevraStrict poolTwins (queryFresh .applyExcludes []) HY_EQ
        (some (canonicalNevra poolTwins 1)) =
      .ok (0, ⟨true, .applyExcludes, some {1, 2}, []⟩) ∧
    ({1, 2} : Finset Nat) ≠ {1} := by
  constructor <;> decide

/-! ## Claim C8 -/

/-- C8: `sltrToJob` appends nothing when the selector has no required and
no optional filter, and fails with `BAD_SELECTOR` when an optional
filter is present without any required one. -/
theorem C8_sltrToJob (p : JPool) (sltr : Selector) (job : List (Nat × Nat))
    (act : Nat) :
    (sltr.pkgs = none → sltr.name = none → sltr.provides = none →
      sltr.file = none → sltr.arch = none → sltr.evr = none →
      sltr.reponame = none → sltrToJob p sltr job act = .ok job) ∧
    (sltr.pkgs = none → sltr.name = none → sltr.provides = none →
      sltr.file = none →
      (sltr.arch.isSome ∨ sltr.evr.isSome ∨ sltr.reponame.isSome) →
      sltrToJob p sltr job act = .error .BAD_SELECTOR) := by
  constructor
  · intro h1 h2 h3 h4 h5 h6 h7
    unfold sltrToJob
    simp [h1, h2, h3, h4, h5, h6, h7]
  · intro h1 h2 h3 h4 hopt
    unfold sltrToJob
    rcases hopt with h | h | h <;>
      simp [h1, h2, h3, h4, Option.isSome_iff_exists] at h ⊢ <;>
      obtain ⟨f, hf⟩ := h <;> simp [hf]

/-- Witness for C8: the empty selector appends nothing; a selector with
only an arch filter is rejected. -/
theorem C8_sltrToJob_witness :
    sltrToJob jpool0 ⟨none, none, none, none, none, none, none⟩ [] 0 = .ok [] ∧
    sltrToJob jpool0
        ⟨none, none, none, none, some ⟨0, HY_EQ, [.mstr ['x']]⟩, none, none⟩ [] 0 =
      .error .BAD_SELECTOR := by
  constructor
  · exact (C8_sltrToJob jpool0 _ [] 0).1 rfl rfl rfl rfl rfl rfl rfl
  · exact (C8_sltrToJob jpool0 _ [] 0).2 rfl rfl rfl rfl (Or.inl rfl)

/-! ## Claim C9 -/

/-- C9 (amended): before any run, `hasActions(X)` for a flag bit `X`
holds exactly when some staged intent sets `X`; `run(flags)`
additionally ORs its `flags` argument into the actions bitset, so after
a run `hasActions` can hold without any such intent. -/
theorem C9_actionsMirrorIntents :
    (∀ (prk : Bool) (is : List Intent) (k : Nat),
        hasActions (applyIntents (goalFresh prk) is) (2 ^ k) = true ↔
          ∃ i ∈ is, intentMask i &&& 2 ^ k ≠ 0) ∧
    (∀ (sack : Sack) (orac : SolverOracle) (g : GoalState) (flags : Nat),
        ((runG sack orac g flags).1).actions = g.actions ||| flags) := by
  constructor
  · intro prk is k
    have : hasActions (applyIntents (goalFresh prk) is) (2 ^ k) = true ↔
        (applyIntents (goalFresh prk) is).actions &&& 2 ^ k ≠ 0 := by
      unfold hasActions
      simp
    rw [this, land_two_pow_ne_zero, applyIntents_actions, testBit_foldl_or]
    have h0 : (goalFresh prk).actions = 0 := rfl
    rw [h0]
    simp only [Nat.zero_testBit, Bool.false_or, List.any_eq_true]
    constructor
    · rintro ⟨i, hi, hb⟩
      exact ⟨i, hi, (land_two_pow_ne_zero _ k).mpr hb⟩
    · rintro ⟨i, hi, hb⟩
      exact ⟨i, hi, (land_two_pow_ne_zero _ k).mp hb⟩
  · intro sack orac g flags
    unfold runG
    rw [solveG_actions]

/-- Counterexample to C9 as stated: a goal with no staged intents at all,
after a (failing) `run(DNF_ALLOW_UNINSTALL)`, reports
`hasActions(DNF_ALLOW_UNINSTALL)` — the bit came from the run flags, not
from any intent. -/
theorem C9_counterexample :
    hasActions ((runG sack0 oracleFail
        (applyIntents (goalFresh true) []) DNF_ALLOW_UNINSTALL).1)
      DNF_ALLOW_UNINSTALL = true := by
  decide

/-! ## Claim C10 -/

/-- The visited prefix of the match array is the part before the first
null. -/
theorem take_gStrvLength (ms : List (Option (List Char))) :
    ms.take (gStrvLength ms) = ms.takeWhile (fun m => m.isSome) := by
  induction ms with
  | nil => rfl
  | cons a t ih =>
    cases a with
    | none => rfl
    | some s =>
      show (some s :: t).take (gStrvLength (some s :: t)) = _
      rw [show gStrvLength (some s :: t) = gStrvLength t + 1 from by
        simp [gStrvLength, List.takeWhile_cons]]
      rw [List.take_succ_cons, ih]
      simp [List.takeWhile_cons]

/-- An all-non-null match array is its own `g_strv_length` prefix. -/
theorem strv_prefix_all_some (ms : List (List Char)) :
    (ms.map some).takeWhile (fun m => m.isSome) = ms.map some := by
  induction ms with
  | nil => rfl
  | cons a t ih => simp [List.takeWhile_cons, ih]

/-- A null truncates the match array at its position. -/
theorem strv_prefix_null (pre : List (List Char))
    (post : List (Option (List Char))) :
    (pre.map some ++ none :: post).takeWhile (fun m => m.isSome) =
      pre.map some := by
  induction pre with
  | nil => rfl
  | cons a t ih => simp [List.takeWhile_cons, ih]

/-- C10 (amended): the single-string filter constructors go through
`copyFilterChar`, which throws the untyped runtime error "Query can not
accept NULL for STR match" on a null match — not the typed `BAD_QUERY`
code — and never throws on a non-null match.  On the `NEVRA_STRICT`
path, however, the match loop is bounded by `g_strv_length`, which
treats the first null as the array terminator: the in-loop null check is
unreachable, a null merely truncates the match array (the call never
throws), and with a null *first* match the compare set is empty, so the
result is emptied (without `HY_NOT`) and the call returns normally. -/
theorem C10_nullStrMatch :
    (∀ k, copyFilterChar none k =
        .error (.runtimeError "Query can not accept NULL for STR match")) ∧
    (∀ s k, (copyFilterChar (some s) k).isOk = true) ∧
    (∀ (p : QPool) (cmp : Nat) (res : Finset Nat) (pre : List (List Char))
        (post : List (Option (List Char))),
        filterNevraStrict p cmp (pre.map some ++ none :: post) res =
          filterNevraStrict p cmp (pre.map some) res) ∧
    (∀ (p : QPool) (cmp : Nat) (res : Finset Nat)
        (post : List (Option (List Char))),
        filterNevraStrict p cmp (none :: post) res =
          if cmp &&& HY_NOT = 0 then .ok ∅ else .ok res) ∧
    (∀ (p : QPool) (cmp : Nat) (res : Finset Nat) (ms : List (List Char)),
        (filterNevraStrict p cmp (ms.map some) res).isOk = true) := by
  refine ⟨fun k => rfl, ?_, ?_, ?_, ?_⟩
  · intro s k
    simp only [copyFilterChar]
    split <;> rfl
  · intro p cmp res pre post
    unfold filterNevraStrict
    rw [take_gStrvLength, take_gStrvLength, strv_prefix_null,
      strv_prefix_all_some]
  · intro p cmp res post
    rfl
  · intro p cmp res ms
    unfold filterNevraStrict
    dsimp only
    rw [take_gStrvLength, strv_prefix_all_some]
    obtain ⟨l, hl⟩ := collectNevraIds_someOk p
      (decide ¬(cmp &&& HY_LT ≠ 0 ∨ cmp &&& HY_GT ≠ 0)) ms
    rw [hl]
    split
    · rename_i e heq
      exact Except.noConfusion heq
    · repeat' split
      all_goals rfl

/-- Counterexample to C10 as stated: a `NEVRA_STRICT` filter given the
match array `{NULL}` does not throw.  `g_strv_length` counts zero
matches, the empty compare set empties the result, and `addFilter`
returns `0` with a successfully updated query. -/
theorem C10_counterexample :
    addFilterNevraStrict poolOne (queryFresh .applyExcludes []) HY_EQ none =
      .ok (0, ⟨true, .applyExcludes, some ∅, []⟩) ∧
    filterNevraStrict poolOne HY_EQ [none] ({1} : Finset Nat) = .ok ∅ := by
  constructor <;> decide

end Libdnf
